import Mathlib

/-!
# Verification of the orbithunter KS spectral core

This file is a shallow embedding, over exact real arithmetic, of the
symmetry-aware spectral state representation of the Kuramoto-Sivashinsky
orbit classes of `orbithunter` (`orbithunter/ks/orbits.py`, with the base
class in `orbithunter/core.py`), together with proofs and refutations of
the frozen specification claims about it.

Conventions of the embedding:
* `numpy` arrays are total functions `ℕ → ℕ → ℝ`; every operation reads the
  array only on the index range given by the discretization and the basis,
  and statements compare arrays on those ranges (`EqOn2`).
* `scipy.fft.rfft`/`irfft` with `norm='ortho'` are embedded by their
  mathematical definition (sums of cosines/sines with `1/√len` scaling).
* Python floats are exact reals; "within floating-point tolerance" in the
  spec is read as exact equality of the real-arithmetic semantics.
* exceptions (`assert`, `raise ValueError`) are `Except String` results.
* the file `orbithunter/ks/arrayops.py` is not part of the provided source;
  the few helpers imported from it (`swap_modes`, `so2_coefficients`,
  `so2_generator`) are modelled from the specification text, as flagged at
  their definitions.
-/

open Finset Real

/-! ## Discrete Fourier orthogonality core -/

/-- Geometric-sum orthogonality of the `M`-th roots of unity. -/
theorem sumExpOrtho (M : ℕ) (hM : 0 < M) (t : ℤ) :
    ∑ j ∈ Finset.range M, Complex.exp (2 * Real.pi * t * j / M * Complex.I)
      = if (M : ℤ) ∣ t then (M : ℂ) else 0 := by
  have hM0 : (M : ℂ) ≠ 0 := Nat.cast_ne_zero.mpr hM.ne'
  have hterm : ∀ j : ℕ, Complex.exp (2 * Real.pi * t * j / M * Complex.I)
      = Complex.exp (2 * Real.pi * t / M * Complex.I) ^ j := by
    intro j
    rw [← Complex.exp_nat_mul]
    ring_nf
  simp only [hterm]
  by_cases hdvd : (M : ℤ) ∣ t
  · rw [if_pos hdvd]
    obtain ⟨s, hs⟩ := hdvd
    have hz : Complex.exp (2 * Real.pi * t / M * Complex.I) = 1 := by
      have harg : (2 * Real.pi * t / M * Complex.I : ℂ) = s * (2 * Real.pi * Complex.I) := by
        rw [hs]
        push_cast
        field_simp
        ring
      rw [harg, Complex.exp_int_mul_two_pi_mul_I]
    simp [hz]
  · have hz : Complex.exp (2 * Real.pi * t / M * Complex.I) ≠ 1 := by
      intro h1
      rw [Complex.exp_eq_one_iff] at h1
      obtain ⟨s, hs⟩ := h1
      apply hdvd
      have hs' : ((2 * Real.pi * t / M : ℝ) : ℂ) * Complex.I
          = ((s * (2 * Real.pi) : ℝ) : ℂ) * Complex.I := by
        push_cast
        rw [hs]
        ring
      have hre : (2 * Real.pi * t / M : ℝ) = s * (2 * Real.pi) := by
        have := mul_right_cancel₀ Complex.I_ne_zero hs'
        exact_mod_cast this
      have hpi : (0 : ℝ) < 2 * Real.pi := by positivity
      have hMr : (M : ℝ) ≠ 0 := Nat.cast_ne_zero.mpr hM.ne'
      have ht : (t : ℝ) = s * M := by
        field_simp at hre
        apply mul_left_cancel₀ hpi.ne'
        linarith [hre]
      exact ⟨s, by rw [mul_comm]; exact_mod_cast ht⟩
    rw [geom_sum_eq hz]
    have hpow : Complex.exp (2 * Real.pi * t / M * Complex.I) ^ M = 1 := by
      rw [← Complex.exp_nat_mul]
      have harg : (M : ℂ) * (2 * Real.pi * t / M * Complex.I)
          = t * (2 * Real.pi * Complex.I) := by
        field_simp
        ring
      rw [harg, Complex.exp_int_mul_two_pi_mul_I]
    rw [hpow]
    simp [hdvd]

/-- Sum of sampled cosines over one period. -/
theorem sumCos (M : ℕ) (hM : 0 < M) (t : ℤ) :
    ∑ j ∈ Finset.range M, Real.cos (2 * Real.pi * t * j / M)
      = if (M : ℤ) ∣ t then (M : ℝ) else 0 := by
  have h := congrArg Complex.re (sumExpOrtho M hM t)
  rw [Complex.re_sum] at h
  have hterm : ∀ j ∈ Finset.range M,
      (Complex.exp (2 * Real.pi * t * j / M * Complex.I)).re
        = Real.cos (2 * Real.pi * t * j / M) := by
    intro j _
    rw [show (2 * (Real.pi : ℂ) * t * j / M * Complex.I)
        = ((2 * Real.pi * t * j / M : ℝ) : ℂ) * Complex.I by push_cast; ring]
    exact Complex.exp_ofReal_mul_I_re _
  rw [Finset.sum_congr rfl hterm] at h
  rw [h]
  split_ifs <;> simp

/-- Sum of sampled sines over one period vanishes. -/
theorem sumSin (M : ℕ) (hM : 0 < M) (t : ℤ) :
    ∑ j ∈ Finset.range M, Real.sin (2 * Real.pi * t * j / M) = 0 := by
  have h := congrArg Complex.im (sumExpOrtho M hM t)
  rw [Complex.im_sum] at h
  have hterm : ∀ j ∈ Finset.range M,
      (Complex.exp (2 * Real.pi * t * j / M * Complex.I)).im
        = Real.sin (2 * Real.pi * t * j / M) := by
    intro j _
    rw [show (2 * (Real.pi : ℂ) * t * j / M * Complex.I)
        = ((2 * Real.pi * t * j / M : ℝ) : ℂ) * Complex.I by push_cast; ring]
    exact Complex.exp_ofReal_mul_I_im _
  rw [Finset.sum_congr rfl hterm] at h
  rw [h]
  split_ifs <;> simp

/-- A frequency strictly between `0` and `M` is not a multiple of `M`. -/
theorem notDvdOfBetween (M : ℕ) (t : ℤ) (h1 : 0 < t) (h2 : t < M) : ¬ (M : ℤ) ∣ t := by
  intro hd
  have := Int.le_of_dvd h1 hd
  omega

/-- Sum of a sampled cosine at a nonzero admissible frequency vanishes. -/
theorem sumCosInner (M : ℕ) (hM : 0 < M) (t : ℕ) (h1 : 1 ≤ t) (h2 : 2 * t + 2 ≤ M) :
    ∑ j ∈ Finset.range M, Real.cos (2 * Real.pi * t * j / M) = 0 := by
  have h := sumCos M hM (t : ℤ)
  rw [if_neg (notDvdOfBetween M t (by exact_mod_cast h1) (by exact_mod_cast (by omega : t < M)))] at h
  simpa using h

/-- Orthogonality of sampled cosines at admissible KS frequencies. -/
theorem sumCosCos (M : ℕ) (hM : 0 < M) (s t : ℕ)
    (hs1 : 1 ≤ s) (hs2 : 2 * s + 2 ≤ M) (ht1 : 1 ≤ t) (ht2 : 2 * t + 2 ≤ M) :
    ∑ j ∈ Finset.range M, Real.cos (2 * Real.pi * s * j / M) * Real.cos (2 * Real.pi * t * j / M)
      = if s = t then (M : ℝ) / 2 else 0 := by
  have key : ∀ j ∈ Finset.range M,
      Real.cos (2 * Real.pi * s * j / M) * Real.cos (2 * Real.pi * t * j / M)
        = (Real.cos (2 * Real.pi * (((s : ℤ) - t : ℤ) : ℝ) * j / M)
            + Real.cos (2 * Real.pi * (((s : ℤ) + t : ℤ) : ℝ) * j / M)) / 2 := by
    intro j _
    have e1 : (2 * Real.pi * (((s : ℤ) - t : ℤ) : ℝ) * j / M)
        = 2 * Real.pi * s * j / M - 2 * Real.pi * t * j / M := by push_cast; ring
    have e2 : (2 * Real.pi * (((s : ℤ) + t : ℤ) : ℝ) * j / M)
        = 2 * Real.pi * s * j / M + 2 * Real.pi * t * j / M := by push_cast; ring
    rw [e1, e2, Real.cos_sub, Real.cos_add]
    ring
  rw [Finset.sum_congr rfl key, ← Finset.sum_div, Finset.sum_add_distrib,
    sumCos M hM ((s : ℤ) - t), sumCos M hM ((s : ℤ) + t)]
  rw [if_neg (notDvdOfBetween M ((s : ℤ) + t) (by omega) (by omega))]
  by_cases h : s = t
  · subst h
    simp
  · rw [if_neg]
    · simp [h]
    · intro hd
      have h0 : ((s : ℤ) - t) = 0 := Int.eq_zero_of_abs_lt_dvd hd (by
        rw [abs_lt]
        constructor <;> [push_cast; push_cast] <;> omega)
      omega

/-- Orthogonality of sampled sines at admissible KS frequencies. -/
theorem sumSinSin (M : ℕ) (hM : 0 < M) (s t : ℕ)
    (hs1 : 1 ≤ s) (hs2 : 2 * s + 2 ≤ M) (ht1 : 1 ≤ t) (ht2 : 2 * t + 2 ≤ M) :
    ∑ j ∈ Finset.range M, Real.sin (2 * Real.pi * s * j / M) * Real.sin (2 * Real.pi * t * j / M)
      = if s = t then (M : ℝ) / 2 else 0 := by
  have key : ∀ j ∈ Finset.range M,
      Real.sin (2 * Real.pi * s * j / M) * Real.sin (2 * Real.pi * t * j / M)
        = (Real.cos (2 * Real.pi * (((s : ℤ) - t : ℤ) : ℝ) * j / M)
            - Real.cos (2 * Real.pi * (((s : ℤ) + t : ℤ) : ℝ) * j / M)) / 2 := by
    intro j _
    have e1 : (2 * Real.pi * (((s : ℤ) - t : ℤ) : ℝ) * j / M)
        = 2 * Real.pi * s * j / M - 2 * Real.pi * t * j / M := by push_cast; ring
    have e2 : (2 * Real.pi * (((s : ℤ) + t : ℤ) : ℝ) * j / M)
        = 2 * Real.pi * s * j / M + 2 * Real.pi * t * j / M := by push_cast; ring
    rw [e1, e2, Real.cos_sub, Real.cos_add]
    ring
  rw [Finset.sum_congr rfl key, ← Finset.sum_div, Finset.sum_sub_distrib,
    sumCos M hM ((s : ℤ) - t), sumCos M hM ((s : ℤ) + t)]
  rw [if_neg (notDvdOfBetween M ((s : ℤ) + t) (by omega) (by omega))]
  by_cases h : s = t
  · subst h
    simp
  · rw [if_neg]
    · simp [h]
    · intro hd
      have h0 : ((s : ℤ) - t) = 0 := Int.eq_zero_of_abs_lt_dvd hd (by
        rw [abs_lt]
        constructor <;> [push_cast; push_cast] <;> omega)
      omega

/-- Sampled sines and cosines at admissible KS frequencies are orthogonal. -/
theorem sumSinCos (M : ℕ) (hM : 0 < M) (s t : ℕ) :
    ∑ j ∈ Finset.range M, Real.sin (2 * Real.pi * s * j / M) * Real.cos (2 * Real.pi * t * j / M)
      = 0 := by
  have key : ∀ j ∈ Finset.range M,
      Real.sin (2 * Real.pi * s * j / M) * Real.cos (2 * Real.pi * t * j / M)
        = (Real.sin (2 * Real.pi * (((s : ℤ) + t : ℤ) : ℝ) * j / M)
            + Real.sin (2 * Real.pi * (((s : ℤ) - t : ℤ) : ℝ) * j / M)) / 2 := by
    intro j _
    have e1 : (2 * Real.pi * (((s : ℤ) - t : ℤ) : ℝ) * j / M)
        = 2 * Real.pi * s * j / M - 2 * Real.pi * t * j / M := by push_cast; ring
    have e2 : (2 * Real.pi * (((s : ℤ) + t : ℤ) : ℝ) * j / M)
        = 2 * Real.pi * s * j / M + 2 * Real.pi * t * j / M := by push_cast; ring
    rw [e1, e2, Real.sin_add, Real.sin_sub]
    ring
  rw [Finset.sum_congr rfl key, ← Finset.sum_div, Finset.sum_add_distrib,
    sumSin M hM ((s : ℤ) + t), sumSin M hM ((s : ℤ) - t)]
  norm_num

/-! ## 1-D orthonormal real transforms (the `rfft`/`irfft` compositions of the code)

`spaceFwd1`/`spaceInv1` embed one row of `OrbitKS._space_transform` /
`_inv_space_transform` (`orbits.py:1775-1823`): `√2 · rfft(u, norm='ortho')`
keeping complex frequencies `1..M/2-1` split into real parts (slots
`0..m-1`) and imaginary parts (slots `m..2m-1`), with `m = M/2 - 1`;
the inverse rebuilds the zero-mean, Nyquist-free signal.

`timeFwd1`/`timeInv1` embed one column of `OrbitKS._time_transform` /
`_inv_time_transform` (`orbits.py:1719-1773`): `rfft` along time keeping the
real parts of frequencies `0..N/2-1` (the Nyquist row is dropped) and the
imaginary parts of frequencies `1..N/2-1`, all but the zeroth row scaled
by `√2`. -/

def m_of (M : ℕ) : ℕ := M / 2 - 1

def n_of (N : ℕ) : ℕ := N / 2 - 1

noncomputable def spaceFwd1 (M : ℕ) (u : ℕ → ℝ) (k : ℕ) : ℝ :=
  if k < m_of M then
    Real.sqrt 2 / Real.sqrt M
      * ∑ j ∈ Finset.range M, u j * Real.cos (2 * Real.pi * ((k + 1 : ℕ) : ℝ) * j / M)
  else if k < 2 * m_of M then
    -(Real.sqrt 2 / Real.sqrt M)
      * ∑ j ∈ Finset.range M, u j * Real.sin (2 * Real.pi * ((k - m_of M + 1 : ℕ) : ℝ) * j / M)
  else 0

noncomputable def spaceInv1 (M : ℕ) (y : ℕ → ℝ) (j : ℕ) : ℝ :=
  Real.sqrt 2 / Real.sqrt M * ∑ k ∈ Finset.range (m_of M),
    (y k * Real.cos (2 * Real.pi * ((k + 1 : ℕ) : ℝ) * j / M)
      - y (m_of M + k) * Real.sin (2 * Real.pi * ((k + 1 : ℕ) : ℝ) * j / M))

noncomputable def timeFwd1 (N : ℕ) (u : ℕ → ℝ) (q : ℕ) : ℝ :=
  if q = 0 then 1 / Real.sqrt N * ∑ j ∈ Finset.range N, u j
  else if q ≤ n_of N then
    Real.sqrt 2 / Real.sqrt N
      * ∑ j ∈ Finset.range N, u j * Real.cos (2 * Real.pi * (q : ℝ) * j / N)
  else if q ≤ 2 * n_of N then
    -(Real.sqrt 2 / Real.sqrt N)
      * ∑ j ∈ Finset.range N, u j * Real.sin (2 * Real.pi * ((q - n_of N : ℕ) : ℝ) * j / N)
  else 0

noncomputable def timeInv1 (N : ℕ) (z : ℕ → ℝ) (j : ℕ) : ℝ :=
  1 / Real.sqrt N * z 0 + Real.sqrt 2 / Real.sqrt N * ∑ q ∈ Finset.range (n_of N),
    (z (q + 1) * Real.cos (2 * Real.pi * ((q + 1 : ℕ) : ℝ) * j / N)
      - z (n_of N + 1 + q) * Real.sin (2 * Real.pi * ((q + 1 : ℕ) : ℝ) * j / N))

/-- `√2/√M` squared is `2/M`. -/
theorem sqrtTwoDivSq (M : ℕ) (hM : 0 < M) :
    Real.sqrt 2 / Real.sqrt M * (Real.sqrt 2 / Real.sqrt M) = 2 / M := by
  rw [div_mul_div_comm, Real.mul_self_sqrt (by norm_num), Real.mul_self_sqrt (by positivity)]

/-- Interchange a weighted double sum arising from composing a transform with
its inverse: the inner expansion is pulled out and the two index sums swap. -/
theorem innerExpand (Ms ms : Finset ℕ) (c : ℝ) (f : ℕ → ℕ → ℝ) (g : ℕ → ℝ) :
    ∑ j ∈ Ms, (c * ∑ k ∈ ms, f k j) * g j = ∑ k ∈ ms, c * ∑ j ∈ Ms, f k j * g j := by
  have h1 : ∀ j ∈ Ms, (c * ∑ k ∈ ms, f k j) * g j = ∑ k ∈ ms, c * (f k j * g j) := by
    intro j _
    rw [Finset.mul_sum, Finset.sum_mul]
    exact Finset.sum_congr rfl fun k _ => by ring
  rw [Finset.sum_congr rfl h1, Finset.sum_comm]
  exact Finset.sum_congr rfl fun k _ => by rw [Finset.mul_sum]

/-- Split a sum of paired cosine/sine contributions against a common factor. -/
theorem innerSplit (Ms : Finset ℕ) (x y : ℝ) (A B g : ℕ → ℝ) :
    ∑ j ∈ Ms, (x * A j - y * B j) * g j
      = x * ∑ j ∈ Ms, A j * g j - y * ∑ j ∈ Ms, B j * g j := by
  rw [Finset.mul_sum, Finset.mul_sum, ← Finset.sum_sub_distrib]
  exact Finset.sum_congr rfl fun j _ => by ring

/-- The forward spatial transform is a left inverse of the inverse spatial
transform on the retained frequency slots. -/
theorem spaceFwd1_spaceInv1 (M : ℕ) (hM4 : 4 ≤ M) (hME : M % 2 = 0)
    (y : ℕ → ℝ) (k : ℕ) (hk : k < 2 * m_of M) :
    spaceFwd1 M (spaceInv1 M y) k = y k := by
  have hM : 0 < M := by omega
  have hMr : (M : ℝ) ≠ 0 := Nat.cast_ne_zero.mpr hM.ne'
  by_cases hkm : k < m_of M
  · rw [spaceFwd1, if_pos hkm]
    simp only [spaceInv1]
    rw [innerExpand]
    have hper : ∀ k' ∈ Finset.range (m_of M),
        (Real.sqrt 2 / Real.sqrt M * ∑ j ∈ Finset.range M,
          (y k' * Real.cos (2 * Real.pi * ((k' + 1 : ℕ) : ℝ) * j / M)
            - y (m_of M + k') * Real.sin (2 * Real.pi * ((k' + 1 : ℕ) : ℝ) * j / M))
            * Real.cos (2 * Real.pi * ((k + 1 : ℕ) : ℝ) * j / M))
        = if k' = k then Real.sqrt 2 / Real.sqrt M * (y k * ((M : ℝ) / 2)) else 0 := by
      intro k' hk'
      rw [Finset.mem_range] at hk'
      rw [innerSplit, sumCosCos M hM (k' + 1) (k + 1) (by omega)
          (by unfold m_of at hk'; omega) (by omega) (by unfold m_of at hkm; omega),
        sumSinCos M hM (k' + 1) (k + 1)]
      by_cases h : k' = k
      · subst h
        simp
      · rw [if_neg (by omega)]
        simp [h]
    rw [Finset.sum_congr rfl hper, Finset.sum_ite_eq' (Finset.range (m_of M)) k,
      if_pos (Finset.mem_range.mpr hkm), ← mul_assoc, sqrtTwoDivSq M hM]
    field_simp
    ring
  · rw [spaceFwd1, if_neg hkm, if_pos hk]
    simp only [spaceInv1]
    rw [neg_mul, innerExpand]
    have hper : ∀ k' ∈ Finset.range (m_of M),
        (Real.sqrt 2 / Real.sqrt M * ∑ j ∈ Finset.range M,
          (y k' * Real.cos (2 * Real.pi * ((k' + 1 : ℕ) : ℝ) * j / M)
            - y (m_of M + k') * Real.sin (2 * Real.pi * ((k' + 1 : ℕ) : ℝ) * j / M))
            * Real.sin (2 * Real.pi * ((k - m_of M + 1 : ℕ) : ℝ) * j / M))
        = if k' = k - m_of M then -(Real.sqrt 2 / Real.sqrt M * (y k * ((M : ℝ) / 2))) else 0 := by
      intro k' hk'
      rw [Finset.mem_range] at hk'
      have hsc : ∀ j ∈ Finset.range M,
          Real.cos (2 * Real.pi * ((k' + 1 : ℕ) : ℝ) * j / M)
            * Real.sin (2 * Real.pi * ((k - m_of M + 1 : ℕ) : ℝ) * j / M)
          = Real.sin (2 * Real.pi * ((k - m_of M + 1 : ℕ) : ℝ) * j / M)
            * Real.cos (2 * Real.pi * ((k' + 1 : ℕ) : ℝ) * j / M) := by
        intro j _
        ring
      rw [innerSplit, Finset.sum_congr rfl hsc,
        sumSinCos M hM (k - m_of M + 1) (k' + 1),
        sumSinSin M hM (k' + 1) (k - m_of M + 1) (by omega)
          (by unfold m_of at hk'; omega) (by omega) (by unfold m_of at hkm hk ⊢; omega)]
      by_cases h : k' = k - m_of M
      · rw [if_pos (by omega), if_pos h, h]
        have hks : m_of M + (k - m_of M) = k := by omega
        rw [hks]
        ring
      · rw [if_neg (by omega), if_neg h]
        ring
    rw [Finset.sum_congr rfl hper, Finset.sum_ite_eq' (Finset.range (m_of M)) (k - m_of M),
      if_pos (Finset.mem_range.mpr (by omega))]
    rw [show -(Real.sqrt 2 / Real.sqrt M
          * -(Real.sqrt 2 / Real.sqrt M * (y k * ((M : ℝ) / 2))))
        = Real.sqrt 2 / Real.sqrt M * (Real.sqrt 2 / Real.sqrt M) * (y k * ((M : ℝ) / 2))
        by ring, sqrtTwoDivSq M hM]
    field_simp
    ring

/-- `sumSin` with a natural-number frequency. -/
theorem sumSinNat (M : ℕ) (hM : 0 < M) (t : ℕ) :
    ∑ j ∈ Finset.range M, Real.sin (2 * Real.pi * (t : ℝ) * j / M) = 0 := by
  have h := sumSin M hM (t : ℤ)
  push_cast at h
  exact h

/-- The forward temporal transform is a left inverse of the inverse temporal
transform on the retained frequency slots. -/
theorem timeFwd1_timeInv1 (N : ℕ) (hN2 : 2 ≤ N) (hNE : N % 2 = 0)
    (z : ℕ → ℝ) (q : ℕ) (hq : q < 2 * n_of N + 1) :
    timeFwd1 N (timeInv1 N z) q = z q := by
  have hN : 0 < N := by omega
  have hNr : (N : ℝ) ≠ 0 := Nat.cast_ne_zero.mpr hN.ne'
  have hsq : 1 / Real.sqrt N * (1 / Real.sqrt N) = 1 / N := by
    rw [div_mul_div_comm, Real.mul_self_sqrt (by positivity)]
    norm_num
  rcases Nat.eq_zero_or_pos q with hq0 | hqpos
  · -- the zeroth (mean) row
    subst hq0
    rw [timeFwd1, if_pos rfl]
    simp only [timeInv1]
    have hdc : 1 / Real.sqrt N * ∑ _j ∈ Finset.range N, 1 / Real.sqrt N * z 0
        = z 0 := by
      rw [Finset.sum_const, Finset.card_range, nsmul_eq_mul,
        show (1 : ℝ) / Real.sqrt N * ((N : ℝ) * (1 / Real.sqrt N * z 0))
          = 1 / Real.sqrt N * (1 / Real.sqrt N) * N * z 0 by ring, hsq]
      field_simp
    have hrest : ∑ j ∈ Finset.range N,
        (Real.sqrt 2 / Real.sqrt N * ∑ q' ∈ Finset.range (n_of N),
          (z (q' + 1) * Real.cos (2 * Real.pi * ((q' + 1 : ℕ) : ℝ) * j / N)
            - z (n_of N + 1 + q') * Real.sin (2 * Real.pi * ((q' + 1 : ℕ) : ℝ) * j / N)))
        = 0 := by
      have hone : ∀ j ∈ Finset.range N,
          (Real.sqrt 2 / Real.sqrt N * ∑ q' ∈ Finset.range (n_of N),
            (z (q' + 1) * Real.cos (2 * Real.pi * ((q' + 1 : ℕ) : ℝ) * j / N)
              - z (n_of N + 1 + q') * Real.sin (2 * Real.pi * ((q' + 1 : ℕ) : ℝ) * j / N)))
          = (Real.sqrt 2 / Real.sqrt N * ∑ q' ∈ Finset.range (n_of N),
            (z (q' + 1) * Real.cos (2 * Real.pi * ((q' + 1 : ℕ) : ℝ) * j / N)
              - z (n_of N + 1 + q') * Real.sin (2 * Real.pi * ((q' + 1 : ℕ) : ℝ) * j / N)))
            * 1 := by
        intro j _
        ring
      rw [Finset.sum_congr rfl hone, innerExpand]
      refine Finset.sum_eq_zero fun q' hq' => ?_
      rw [Finset.mem_range] at hq'
      have hcongr : ∀ j ∈ Finset.range N,
          (z (q' + 1) * Real.cos (2 * Real.pi * ((q' + 1 : ℕ) : ℝ) * j / N)
            - z (n_of N + 1 + q') * Real.sin (2 * Real.pi * ((q' + 1 : ℕ) : ℝ) * j / N)) * 1
          = (z (q' + 1) * Real.cos (2 * Real.pi * ((q' + 1 : ℕ) : ℝ) * j / N)
            - z (n_of N + 1 + q') * Real.sin (2 * Real.pi * ((q' + 1 : ℕ) : ℝ) * j / N)) := by
        intro j _
        ring
      rw [Finset.sum_congr rfl hcongr, Finset.sum_sub_distrib, ← Finset.mul_sum, ← Finset.mul_sum,
        sumCosInner N hN (q' + 1) (by omega) (by unfold n_of at hq'; omega),
        sumSinNat N hN (q' + 1)]
      ring
    rw [Finset.sum_add_distrib, mul_add, hdc, hrest]
    ring
  · rw [timeFwd1, if_neg hqpos.ne']
    by_cases hqn : q ≤ n_of N
    · -- cosine rows
      rw [if_pos hqn]
      simp only [timeInv1]
      have hsplit : ∀ j ∈ Finset.range N,
          (1 / Real.sqrt N * z 0 + Real.sqrt 2 / Real.sqrt N * ∑ q' ∈ Finset.range (n_of N),
            (z (q' + 1) * Real.cos (2 * Real.pi * ((q' + 1 : ℕ) : ℝ) * j / N)
              - z (n_of N + 1 + q') * Real.sin (2 * Real.pi * ((q' + 1 : ℕ) : ℝ) * j / N)))
            * Real.cos (2 * Real.pi * (q : ℝ) * j / N)
          = 1 / Real.sqrt N * z 0 * Real.cos (2 * Real.pi * (q : ℝ) * j / N)
            + (Real.sqrt 2 / Real.sqrt N * ∑ q' ∈ Finset.range (n_of N),
              (z (q' + 1) * Real.cos (2 * Real.pi * ((q' + 1 : ℕ) : ℝ) * j / N)
                - z (n_of N + 1 + q') * Real.sin (2 * Real.pi * ((q' + 1 : ℕ) : ℝ) * j / N)))
              * Real.cos (2 * Real.pi * (q : ℝ) * j / N) := by
        intro j _
        ring
      rw [Finset.sum_congr rfl hsplit, Finset.sum_add_distrib, ← Finset.mul_sum]
      have hq2 : 2 * q + 2 ≤ N := by unfold n_of at hqn; omega
      have hqcast : ∑ j ∈ Finset.range N, Real.cos (2 * Real.pi * (q : ℝ) * j / N) = 0 :=
        sumCosInner N hN q hqpos hq2
      rw [hqcast, innerExpand]
      have hper : ∀ q' ∈ Finset.range (n_of N),
          (Real.sqrt 2 / Real.sqrt N * ∑ j ∈ Finset.range N,
            (z (q' + 1) * Real.cos (2 * Real.pi * ((q' + 1 : ℕ) : ℝ) * j / N)
              - z (n_of N + 1 + q') * Real.sin (2 * Real.pi * ((q' + 1 : ℕ) : ℝ) * j / N))
              * Real.cos (2 * Real.pi * (q : ℝ) * j / N))
          = if q' = q - 1 then Real.sqrt 2 / Real.sqrt N * (z q * ((N : ℝ) / 2)) else 0 := by
        intro q' hq'
        rw [Finset.mem_range] at hq'
        have hccq : ∑ j ∈ Finset.range N,
            Real.cos (2 * Real.pi * ((q' + 1 : ℕ) : ℝ) * j / N)
              * Real.cos (2 * Real.pi * (q : ℝ) * j / N)
            = if q' + 1 = q then (N : ℝ) / 2 else 0 :=
          sumCosCos N hN (q' + 1) q (by omega) (by unfold n_of at hq'; omega) hqpos hq2
        rw [innerSplit, hccq, sumSinCos N hN (q' + 1) q]
        by_cases h : q' = q - 1
        · rw [if_pos (by omega), if_pos h]
          have : q' + 1 = q := by omega
          rw [this]
          ring
        · rw [if_neg (by omega), if_neg h]
          ring
      rw [Finset.sum_congr rfl hper, Finset.sum_ite_eq' (Finset.range (n_of N)) (q - 1),
        if_pos (Finset.mem_range.mpr (by omega)), mul_zero, zero_add, ← mul_assoc,
        ← mul_assoc, sqrtTwoDivSq N hN]
      field_simp
    · -- sine rows
      rw [if_neg hqn, if_pos (by omega)]
      simp only [timeInv1]
      have hsplit : ∀ j ∈ Finset.range N,
          (1 / Real.sqrt N * z 0 + Real.sqrt 2 / Real.sqrt N * ∑ q' ∈ Finset.range (n_of N),
            (z (q' + 1) * Real.cos (2 * Real.pi * ((q' + 1 : ℕ) : ℝ) * j / N)
              - z (n_of N + 1 + q') * Real.sin (2 * Real.pi * ((q' + 1 : ℕ) : ℝ) * j / N)))
            * Real.sin (2 * Real.pi * ((q - n_of N : ℕ) : ℝ) * j / N)
          = 1 / Real.sqrt N * z 0 * Real.sin (2 * Real.pi * ((q - n_of N : ℕ) : ℝ) * j / N)
            + (Real.sqrt 2 / Real.sqrt N * ∑ q' ∈ Finset.range (n_of N),
              (z (q' + 1) * Real.cos (2 * Real.pi * ((q' + 1 : ℕ) : ℝ) * j / N)
                - z (n_of N + 1 + q') * Real.sin (2 * Real.pi * ((q' + 1 : ℕ) : ℝ) * j / N)))
              * Real.sin (2 * Real.pi * ((q - n_of N : ℕ) : ℝ) * j / N) := by
        intro j _
        ring
      rw [Finset.sum_congr rfl hsplit, Finset.sum_add_distrib, ← Finset.mul_sum,
        sumSinNat N hN (q - n_of N), innerExpand]
      have hper : ∀ q' ∈ Finset.range (n_of N),
          (Real.sqrt 2 / Real.sqrt N * ∑ j ∈ Finset.range N,
            (z (q' + 1) * Real.cos (2 * Real.pi * ((q' + 1 : ℕ) : ℝ) * j / N)
              - z (n_of N + 1 + q') * Real.sin (2 * Real.pi * ((q' + 1 : ℕ) : ℝ) * j / N))
              * Real.sin (2 * Real.pi * ((q - n_of N : ℕ) : ℝ) * j / N))
          = if q' = q - n_of N - 1
            then -(Real.sqrt 2 / Real.sqrt N * (z q * ((N : ℝ) / 2))) else 0 := by
        intro q' hq'
        rw [Finset.mem_range] at hq'
        have hsc : ∀ j ∈ Finset.range N,
            Real.cos (2 * Real.pi * ((q' + 1 : ℕ) : ℝ) * j / N)
              * Real.sin (2 * Real.pi * ((q - n_of N : ℕ) : ℝ) * j / N)
            = Real.sin (2 * Real.pi * ((q - n_of N : ℕ) : ℝ) * j / N)
              * Real.cos (2 * Real.pi * ((q' + 1 : ℕ) : ℝ) * j / N) := by
          intro j _
          ring
        rw [innerSplit, Finset.sum_congr rfl hsc, sumSinCos N hN (q - n_of N) (q' + 1),
          sumSinSin N hN (q' + 1) (q - n_of N) (by omega) (by unfold n_of at hq'; omega)
            (by omega) (by unfold n_of at hqn hq ⊢; omega)]
        by_cases h : q' = q - n_of N - 1
        · rw [if_pos (by omega), if_pos h]
          have hzidx : n_of N + 1 + q' = q := by omega
          rw [hzidx]
          ring
        · rw [if_neg (by omega), if_neg h]
          ring
      rw [Finset.sum_congr rfl hper,
        Finset.sum_ite_eq' (Finset.range (n_of N)) (q - n_of N - 1),
        if_pos (Finset.mem_range.mpr (by omega)), mul_zero, zero_add, neg_mul_neg,
        ← mul_assoc, sqrtTwoDivSq N hN]
      field_simp
      ring

/-- Evaluation of the forward spatial transform on a real-part slot. -/
theorem spaceFwd1_lo (M : ℕ) (u : ℕ → ℝ) (k : ℕ) (hk : k < m_of M) :
    spaceFwd1 M u k = Real.sqrt 2 / Real.sqrt M
      * ∑ j ∈ Finset.range M, u j * Real.cos (2 * Real.pi * ((k + 1 : ℕ) : ℝ) * j / M) := by
  rw [spaceFwd1, if_pos hk]

/-- Evaluation of the forward spatial transform on an imaginary-part slot. -/
theorem spaceFwd1_hi (M : ℕ) (u : ℕ → ℝ) (k : ℕ) (hk : k < m_of M) :
    spaceFwd1 M u (m_of M + k) = -(Real.sqrt 2 / Real.sqrt M)
      * ∑ j ∈ Finset.range M, u j * Real.sin (2 * Real.pi * ((k + 1 : ℕ) : ℝ) * j / M) := by
  rw [spaceFwd1, if_neg (by omega), if_pos (by omega),
    show m_of M + k - m_of M + 1 = k + 1 by omega]

/-- Evaluation of the forward temporal transform on the mean row. -/
theorem timeFwd1_dc (N : ℕ) (u : ℕ → ℝ) :
    timeFwd1 N u 0 = 1 / Real.sqrt N * ∑ j ∈ Finset.range N, u j := by
  rw [timeFwd1, if_pos rfl]

/-- Evaluation of the forward temporal transform on a real-part row. -/
theorem timeFwd1_cos (N : ℕ) (u : ℕ → ℝ) (q : ℕ) (hq : q < n_of N) :
    timeFwd1 N u (q + 1) = Real.sqrt 2 / Real.sqrt N
      * ∑ j ∈ Finset.range N, u j * Real.cos (2 * Real.pi * ((q + 1 : ℕ) : ℝ) * j / N) := by
  rw [timeFwd1, if_neg (by omega), if_pos (by omega)]

/-- Evaluation of the forward temporal transform on an imaginary-part row. -/
theorem timeFwd1_sin (N : ℕ) (u : ℕ → ℝ) (q : ℕ) (hq : q < n_of N) :
    timeFwd1 N u (n_of N + 1 + q) = -(Real.sqrt 2 / Real.sqrt N)
      * ∑ j ∈ Finset.range N, u j * Real.sin (2 * Real.pi * ((q + 1 : ℕ) : ℝ) * j / N) := by
  rw [timeFwd1, if_neg (by omega), if_neg (by omega), if_pos (by omega),
    show n_of N + 1 + q - n_of N = q + 1 by omega]

/-- The forward spatial transform is the transpose of the inverse spatial
transform: the code's `_space_transform` pairs with `_inv_space_transform`
as adjoints of each other, with no condition on the operands. -/
theorem spaceAdj1 (M : ℕ) (u z : ℕ → ℝ) :
    ∑ k ∈ Finset.range (2 * m_of M), spaceFwd1 M u k * z k
      = ∑ j ∈ Finset.range M, u j * spaceInv1 M z j := by
  rw [two_mul, Finset.sum_range_add]
  have h1 : ∀ k ∈ Finset.range (m_of M), spaceFwd1 M u k * z k
      = (Real.sqrt 2 / Real.sqrt M * ∑ j ∈ Finset.range M,
          u j * Real.cos (2 * Real.pi * ((k + 1 : ℕ) : ℝ) * j / M)) * z k := by
    intro k hk
    rw [spaceFwd1_lo M u k (Finset.mem_range.mp hk)]
  have h2 : ∀ k ∈ Finset.range (m_of M), spaceFwd1 M u (m_of M + k) * z (m_of M + k)
      = (Real.sqrt 2 / Real.sqrt M * ∑ j ∈ Finset.range M,
          -(u j * Real.sin (2 * Real.pi * ((k + 1 : ℕ) : ℝ) * j / M))) * z (m_of M + k) := by
    intro k hk
    rw [spaceFwd1_hi M u k (Finset.mem_range.mp hk), Finset.sum_neg_distrib]
    ring
  rw [Finset.sum_congr rfl h1, Finset.sum_congr rfl h2, innerExpand, innerExpand,
    ← Finset.sum_add_distrib]
  refine Finset.sum_congr rfl fun j _ => ?_
  rw [spaceInv1, Finset.mul_sum, Finset.mul_sum, Finset.mul_sum, ← Finset.sum_add_distrib,
    Finset.mul_sum]
  refine Finset.sum_congr rfl fun k _ => ?_
  ring

/-- The forward temporal transform is the transpose of the inverse temporal
transform: the code's `_time_transform` pairs with `_inv_time_transform`
as adjoints of each other, with no condition on the operands. -/
theorem timeAdj1 (N : ℕ) (u z : ℕ → ℝ) :
    ∑ q ∈ Finset.range (2 * n_of N + 1), timeFwd1 N u q * z q
      = ∑ j ∈ Finset.range N, u j * timeInv1 N z j := by
  rw [Finset.sum_range_succ' (fun q => timeFwd1 N u q * z q) (2 * n_of N), two_mul,
    Finset.sum_range_add, timeFwd1_dc]
  have h1 : ∀ q ∈ Finset.range (n_of N), timeFwd1 N u (q + 1) * z (q + 1)
      = (Real.sqrt 2 / Real.sqrt N * ∑ j ∈ Finset.range N,
          u j * Real.cos (2 * Real.pi * ((q + 1 : ℕ) : ℝ) * j / N)) * z (q + 1) := by
    intro q hq
    rw [timeFwd1_cos N u q (Finset.mem_range.mp hq)]
  have h2 : ∀ q ∈ Finset.range (n_of N), timeFwd1 N u (n_of N + q + 1) * z (n_of N + q + 1)
      = (Real.sqrt 2 / Real.sqrt N * ∑ j ∈ Finset.range N,
          -(u j * Real.sin (2 * Real.pi * ((q + 1 : ℕ) : ℝ) * j / N))) * z (n_of N + 1 + q) := by
    intro q hq
    rw [show n_of N + q + 1 = n_of N + 1 + q by omega,
      timeFwd1_sin N u q (Finset.mem_range.mp hq), Finset.sum_neg_distrib]
    ring
  rw [Finset.sum_congr rfl h1, Finset.sum_congr rfl h2, innerExpand, innerExpand,
    ← Finset.sum_add_distrib,
    show (1 / Real.sqrt N * ∑ j ∈ Finset.range N, u j) * z 0
      = ∑ j ∈ Finset.range N, 1 / Real.sqrt N * u j * z 0 by
        rw [Finset.mul_sum, Finset.sum_mul],
    ← Finset.sum_add_distrib]
  refine Finset.sum_congr rfl fun j _ => ?_
  rw [timeInv1, mul_add, Finset.mul_sum, Finset.mul_sum, Finset.mul_sum, Finset.mul_sum,
    ← Finset.sum_add_distrib, add_comm]
  congr 1
  · ring
  · refine Finset.sum_congr rfl fun q _ => ?_
    ring

/-- Orthonormality (Parseval) of the inverse spatial transform: the physical
field built from a set of spatial modes carries exactly their energy. -/
theorem spaceParseval (M : ℕ) (hM4 : 4 ≤ M) (hME : M % 2 = 0) (y : ℕ → ℝ) :
    ∑ j ∈ Finset.range M, spaceInv1 M y j * spaceInv1 M y j
      = ∑ k ∈ Finset.range (2 * m_of M), y k * y k := by
  have h := spaceAdj1 M (spaceInv1 M y) y
  rw [← h]
  exact Finset.sum_congr rfl fun k hk => by
    rw [spaceFwd1_spaceInv1 M hM4 hME y k (Finset.mem_range.mp hk)]

/-- Orthonormality (Parseval) of the inverse temporal transform. -/
theorem timeParseval (N : ℕ) (hN2 : 2 ≤ N) (hNE : N % 2 = 0) (z : ℕ → ℝ) :
    ∑ j ∈ Finset.range N, timeInv1 N z j * timeInv1 N z j
      = ∑ q ∈ Finset.range (2 * n_of N + 1), z q * z q := by
  have h := timeAdj1 N (timeInv1 N z) z
  rw [← h]
  exact Finset.sum_congr rfl fun q hq => by
    rw [timeFwd1_timeInv1 N hN2 hNE z q (Finset.mem_range.mp hq)]

/-! ## 2-D states and the per-class basis transforms

A `numpy` array is a total function `ℕ → ℕ → ℝ` read on the index range
determined by the discretization `(N, M)` and the basis.  The per-class time
transforms follow the overrides in `orbits.py`:

* `OrbitKS` / `RelativeOrbitKS`: full transforms, mode shape `(N-1, M-2)`;
* `AntisymmetricOrbitKS` (`orbits.py:2602-2658`): only the imaginary
  (last `m`) spatial-mode columns are transformed, mode shape `(N-1, m)`;
* `ShiftReflectionOrbitKS` (`orbits.py:2872-2933`): the two spatial-mode
  column blocks are summed after transforming, and the inverse distributes
  a mode column to the real/imaginary block according to the parity of its
  temporal frequency, mode shape `(N-1, m)`;
* `EquilibriumOrbitKS` (`orbits.py:3501-3538`): row `0` of the imaginary
  spatial-mode columns, tiled back over `N` rows, mode shape `(1, m)`;
* `RelativeEquilibriumOrbitKS` (`orbits.py:3930-3969`): row `0` of all
  spatial-mode columns, tiled back over `N` rows, mode shape `(1, M-2)`. -/

noncomputable def spaceFwd2 (M : ℕ) (u : ℕ → ℕ → ℝ) : ℕ → ℕ → ℝ :=
  fun i k => spaceFwd1 M (fun j => u i j) k

noncomputable def spaceInv2 (M : ℕ) (y : ℕ → ℕ → ℝ) : ℕ → ℕ → ℝ :=
  fun i j => spaceInv1 M (fun k => y i k) j

noncomputable def timeFwd2 (N : ℕ) (s : ℕ → ℕ → ℝ) : ℕ → ℕ → ℝ :=
  fun q k => timeFwd1 N (fun i => s i k) q

noncomputable def timeInv2 (N : ℕ) (z : ℕ → ℕ → ℝ) : ℕ → ℕ → ℝ :=
  fun i k => timeInv1 N (fun q => z q k) i

noncomputable def antiTimeFwd2 (N M : ℕ) (s : ℕ → ℕ → ℝ) : ℕ → ℕ → ℝ :=
  fun q k => timeFwd1 N (fun i => s i (m_of M + k)) q

noncomputable def antiTimeInv2 (N M : ℕ) (z : ℕ → ℕ → ℝ) : ℕ → ℕ → ℝ :=
  fun i k => if k < m_of M then 0 else timeInv1 N (fun q => z q (k - m_of M)) i

/-- Temporal frequency index of a packed mode-row index (`0` is the mean row,
rows `1..n` are real parts of frequencies `1..n`, rows `n+1..2n` imaginary
parts of frequencies `1..n`). -/
def freqOf (n q : ℕ) : ℕ :=
  if q = 0 then 0 else if q ≤ n then q else q - n

/-- Zero out the mode rows whose temporal frequency is odd. -/
noncomputable def maskEven (n : ℕ) (zc : ℕ → ℝ) : ℕ → ℝ :=
  fun q => if freqOf n q % 2 = 0 then zc q else 0

/-- Zero out the mode rows whose temporal frequency is even. -/
noncomputable def maskOdd (n : ℕ) (zc : ℕ → ℝ) : ℕ → ℝ :=
  fun q => if freqOf n q % 2 = 0 then 0 else zc q

noncomputable def srTimeFwd2 (N M : ℕ) (s : ℕ → ℕ → ℝ) : ℕ → ℕ → ℝ :=
  fun q k => timeFwd1 N (fun i => s i k) q + timeFwd1 N (fun i => s i (m_of M + k)) q

noncomputable def srTimeInv2 (N M : ℕ) (z : ℕ → ℕ → ℝ) : ℕ → ℕ → ℝ :=
  fun i k =>
    if k < m_of M then timeInv1 N (maskOdd (n_of N) (fun q => z q k)) i
    else timeInv1 N (maskEven (n_of N) (fun q => z q (k - m_of M))) i

noncomputable def eqTimeFwd2 (M : ℕ) (s : ℕ → ℕ → ℝ) : ℕ → ℕ → ℝ :=
  fun q k => if q = 0 then s 0 (m_of M + k) else 0

noncomputable def eqTimeInv2 (M : ℕ) (z : ℕ → ℕ → ℝ) : ℕ → ℕ → ℝ :=
  fun _i k => if k < m_of M then 0 else z 0 (k - m_of M)

noncomputable def releqTimeFwd2 (s : ℕ → ℕ → ℝ) : ℕ → ℕ → ℝ :=
  fun q k => if q = 0 then s 0 k else 0

noncomputable def releqTimeInv2 (z : ℕ → ℕ → ℝ) : ℕ → ℕ → ℝ :=
  fun _i k => z 0 k

/-- Agreement of two arrays on an `r × c` index range. -/
def EqOn2 (r c : ℕ) (f g : ℕ → ℕ → ℝ) : Prop :=
  ∀ i < r, ∀ j < c, f i j = g i j

/-! ## The orbit data model (`OrbitKS` and its five subclasses) -/

inductive KSBasis
  | field
  | sModes
  | modes
deriving DecidableEq, Repr

inductive KSCls
  | full
  | rel
  | anti
  | sr
  | eqm
  | releq
deriving DecidableEq, Repr

/-- An orbit instance: symmetry class, discretization `(N, M)` (always the
physical-field shape), current basis, state array, parameters `(T, L, S)`,
reference frame (`RelativeOrbitKS` subclasses only; `true` = comoving) and
the per-parameter constraint flags. -/
structure KSOrbit where
  cls : KSCls
  N : ℕ
  M : ℕ
  basis : KSBasis
  state : ℕ → ℕ → ℝ
  T : ℝ
  L : ℝ
  S : ℝ
  frameComoving : Bool
  conT : Bool
  conL : Bool
  conS : Bool

/-- Number of rows of the spatiotemporal mode array (`mode_shape[0]`). -/
def modeRows (c : KSCls) (N : ℕ) : ℕ :=
  match c with
  | .eqm | .releq => 1
  | _ => N - 1

/-- Number of columns of the spatiotemporal mode array (`mode_shape[1]`). -/
def modeCols (c : KSCls) (M : ℕ) : ℕ :=
  match c with
  | .anti | .sr | .eqm => m_of M
  | _ => M - 2

/-- Row count of the state array in a given basis. -/
def shapeRows (c : KSCls) (b : KSBasis) (N : ℕ) : ℕ :=
  match b with
  | .modes => modeRows c N
  | _ => N

/-- Column count of the state array in a given basis. -/
def shapeCols (c : KSCls) (b : KSBasis) (M : ℕ) : ℕ :=
  match b with
  | .field => M
  | .sModes => M - 2
  | .modes => modeCols c M

/-- Construction of a new instance, `self.__class__(state=..., basis=...,
parameters=(T, L, S), ...)`, following `_parse_parameters` of each class:
`S` is forced to `0` for the classes without a shift degree of freedom,
`T` is forced to `0` for `EquilibriumOrbitKS`, the constraint flags are
reset to the per-class defaults (all `False`), and the frame defaults to
comoving.  The one behaviour deliberately outside this fragment is
`RelativeOrbitKS.__init__`'s recomputation of a zero shift via
`calculate_spatial_shift`; theorems about constructions of Relative-class
instances therefore carry an `S ≠ 0` hypothesis where the parameters of the
result matter. -/
def mkOrbit (c : KSCls) (N M : ℕ) (b : KSBasis) (st : ℕ → ℕ → ℝ) (T L S : ℝ) : KSOrbit :=
  { cls := c, N := N, M := M, basis := b, state := st
    T := match c with | .eqm => 0 | _ => T
    L := L
    S := match c with | .rel | .releq => S | _ => 0
    frameComoving := true, conT := false, conL := false, conS := false }

/-- Per-class forward time transform (`s_modes → modes`) on state arrays. -/
noncomputable def tFwdState (c : KSCls) (N M : ℕ) : (ℕ → ℕ → ℝ) → ℕ → ℕ → ℝ :=
  match c with
  | .full | .rel => fun s => timeFwd2 N s
  | .anti => fun s => antiTimeFwd2 N M s
  | .sr => fun s => srTimeFwd2 N M s
  | .eqm => fun s => eqTimeFwd2 M s
  | .releq => fun s => releqTimeFwd2 s

/-- Per-class inverse time transform (`modes → s_modes`) on state arrays. -/
noncomputable def tInvState (c : KSCls) (N M : ℕ) : (ℕ → ℕ → ℝ) → ℕ → ℕ → ℝ :=
  match c with
  | .full | .rel => fun z => timeInv2 N z
  | .anti => fun z => antiTimeInv2 N M z
  | .sr => fun z => srTimeInv2 N M z
  | .eqm => fun z => eqTimeInv2 M z
  | .releq => fun z => releqTimeInv2 z

/-- `OrbitKS._space_transform`, at the orbit level. -/
noncomputable def KSOrbit.spaceTransform (o : KSOrbit) : KSOrbit :=
  mkOrbit o.cls o.N o.M .sModes (spaceFwd2 o.M o.state) o.T o.L o.S

/-- `OrbitKS._inv_space_transform`, at the orbit level. -/
noncomputable def KSOrbit.invSpaceTransform (o : KSOrbit) : KSOrbit :=
  mkOrbit o.cls o.N o.M .field (spaceInv2 o.M o.state) o.T o.L o.S

/-- `_time_transform`, at the orbit level (class-dispatched). -/
noncomputable def KSOrbit.timeTransform (o : KSOrbit) : KSOrbit :=
  mkOrbit o.cls o.N o.M .modes (tFwdState o.cls o.N o.M o.state) o.T o.L o.S

/-- `_inv_time_transform`, at the orbit level (class-dispatched). -/
noncomputable def KSOrbit.invTimeTransform (o : KSOrbit) : KSOrbit :=
  mkOrbit o.cls o.N o.M .sModes (tInvState o.cls o.N o.M o.state) o.T o.L o.S

/-- `OrbitKS.transform` (`orbits.py:158-208`): dispatch on the target and
current basis; composite transforms go through the spatial-mode basis, and
transforming to the current basis returns the instance itself. -/
noncomputable def KSOrbit.transform (tgt : KSBasis) (o : KSOrbit) : KSOrbit :=
  match tgt, o.basis with
  | .field, .sModes => o.invSpaceTransform
  | .field, .modes => o.invTimeTransform.invSpaceTransform
  | .field, .field => o
  | .sModes, .field => o.spaceTransform
  | .sModes, .modes => o.invTimeTransform
  | .sModes, .sModes => o
  | .modes, .sModes => o.timeTransform
  | .modes, .field => o.spaceTransform.timeTransform
  | .modes, .modes => o

/-- Row-wise spatial round trip: `_space_transform ∘ _inv_space_transform`
reproduces any spatial-mode array on its index range. -/
theorem spaceRT2 (M : ℕ) (hM4 : 4 ≤ M) (hME : M % 2 = 0) (y : ℕ → ℕ → ℝ) :
    ∀ i, ∀ k < 2 * m_of M, spaceFwd2 M (spaceInv2 M y) i k = y i k :=
  fun i k hk => spaceFwd1_spaceInv1 M hM4 hME (fun k' => y i k') k hk

/-- Splitting a packed mode row into its even/odd temporal-frequency parts
reproduces it. -/
theorem maskSplit (n : ℕ) (f : ℕ → ℝ) (q : ℕ) :
    maskOdd n f q + maskEven n f q = f q := by
  unfold maskOdd maskEven
  split_ifs <;> ring

/-- The class-dispatched time transform only depends on the retained
spatial-mode columns. -/
theorem tFwdCongr (c : KSCls) (N M : ℕ) (hM4 : 4 ≤ M) (hME : M % 2 = 0)
    (s s' : ℕ → ℕ → ℝ) (h : ∀ i, ∀ k' < 2 * m_of M, s i k' = s' i k') :
    ∀ q, ∀ k < modeCols c M, tFwdState c N M s q k = tFwdState c N M s' q k := by
  intro q k hk
  cases c with
  | full | rel =>
    simp only [tFwdState, timeFwd2]
    rw [funext fun i => h i k (by simp only [modeCols] at hk; unfold m_of; omega)]
  | anti =>
    simp only [tFwdState, antiTimeFwd2]
    rw [funext fun i => h i (m_of M + k)
      (by simp only [modeCols] at hk; unfold m_of at hk ⊢; omega)]
  | sr =>
    simp only [tFwdState, srTimeFwd2]
    rw [funext fun i => h i k (by simp only [modeCols] at hk; unfold m_of at hk ⊢; omega),
      funext fun i => h i (m_of M + k)
        (by simp only [modeCols] at hk; unfold m_of at hk ⊢; omega)]
  | eqm =>
    simp only [tFwdState, eqTimeFwd2]
    rw [h 0 (m_of M + k) (by simp only [modeCols] at hk; unfold m_of at hk ⊢; omega)]
  | releq =>
    simp only [tFwdState, releqTimeFwd2]
    split_ifs with h0
    · rw [h 0 k (by simp only [modeCols] at hk; unfold m_of; omega)]
    · rfl

/-- Per-class temporal round trip: `_time_transform ∘ _inv_time_transform`
reproduces any mode array on its index range. -/
theorem tRT (c : KSCls) (N M : ℕ) (hN2 : 2 ≤ N) (hNE : N % 2 = 0)
    (hM4 : 4 ≤ M) (hME : M % 2 = 0) (z : ℕ → ℕ → ℝ) :
    ∀ q < modeRows c N, ∀ k < modeCols c M,
      tFwdState c N M (tInvState c N M z) q k = z q k := by
  have hq2 : ∀ q, q < N - 1 → q < 2 * n_of N + 1 := by unfold n_of; omega
  intro q hq k hk
  cases c with
  | full | rel =>
    simp only [modeRows] at hq
    simp only [tFwdState, tInvState, timeFwd2, timeInv2]
    exact timeFwd1_timeInv1 N hN2 hNE (fun q' => z q' k) q (hq2 q hq)
  | anti =>
    simp only [modeRows] at hq
    simp only [tFwdState, tInvState, antiTimeFwd2, antiTimeInv2]
    have hcol : (fun i => if m_of M + k < m_of M then (0 : ℝ)
        else timeInv1 N (fun q' => z q' (m_of M + k - m_of M)) i)
        = timeInv1 N (fun q' => z q' k) := by
      funext i
      rw [if_neg (by omega), show m_of M + k - m_of M = k by omega]
    rw [hcol]
    exact timeFwd1_timeInv1 N hN2 hNE (fun q' => z q' k) q (hq2 q hq)
  | sr =>
    simp only [modeRows] at hq
    simp only [modeCols] at hk
    simp only [tFwdState, tInvState, srTimeFwd2, srTimeInv2]
    have hcol1 : (fun i => if k < m_of M then timeInv1 N (maskOdd (n_of N) (fun q' => z q' k)) i
        else timeInv1 N (maskEven (n_of N) (fun q' => z q' (k - m_of M))) i)
        = timeInv1 N (maskOdd (n_of N) (fun q' => z q' k)) := by
      funext i
      rw [if_pos hk]
    have hcol2 : (fun i => if m_of M + k < m_of M
        then timeInv1 N (maskOdd (n_of N) (fun q' => z q' (m_of M + k))) i
        else timeInv1 N (maskEven (n_of N) (fun q' => z q' (m_of M + k - m_of M))) i)
        = timeInv1 N (maskEven (n_of N) (fun q' => z q' k)) := by
      funext i
      rw [if_neg (by omega), show m_of M + k - m_of M = k by omega]
    rw [hcol1, hcol2, timeFwd1_timeInv1 N hN2 hNE _ q (hq2 q hq),
      timeFwd1_timeInv1 N hN2 hNE _ q (hq2 q hq), maskSplit]
  | eqm =>
    simp only [modeRows] at hq
    simp only [tFwdState, tInvState, eqTimeFwd2, eqTimeInv2]
    rw [if_pos (by omega), if_neg (by omega), show m_of M + k - m_of M = k by omega,
      show q = 0 by omega]
  | releq =>
    simp only [modeRows] at hq
    simp only [tFwdState, tInvState, releqTimeFwd2, releqTimeInv2]
    rw [if_pos (by omega), show q = 0 by omega]

/-- Per-class round trip through the physical field. -/
theorem tsRT (c : KSCls) (N M : ℕ) (hN2 : 2 ≤ N) (hNE : N % 2 = 0)
    (hM4 : 4 ≤ M) (hME : M % 2 = 0) (z : ℕ → ℕ → ℝ) :
    ∀ q < modeRows c N, ∀ k < modeCols c M,
      tFwdState c N M (spaceFwd2 M (spaceInv2 M (tInvState c N M z))) q k = z q k := by
  intro q hq k hk
  rw [tFwdCongr c N M hM4 hME _ _
    (fun i k' hk' => spaceRT2 M hM4 hME (tInvState c N M z) i k' hk') q k hk]
  exact tRT c N M hN2 hNE hM4 hME z q hq k hk

/-! ## Frequency operators and spectral derivatives -/

/-- Modelled from the spec: `so2_coefficients` from the missing
`orbithunter/ks/arrayops.py` — "a 2×2 rotation-generator coefficient pair
`(c1, c2)` that encodes whether the operator mixes real/imaginary channels
(odd order) or acts diagonally (even order)" (§4.1): the column sums of the
`p`-th power of the SO(2) generator `[[0, -1], [1, 0]]`. -/
def so2c (p : ℕ) : ℝ × ℝ :=
  match p % 4 with
  | 0 => (1, 1)
  | 1 => (1, -1)
  | 2 => (-1, -1)
  | _ => (-1, 1)

/-- Modelled from the spec: `swap_modes(·, axis=0)` from the missing
`arrayops.py` — "if the order of the derivative is odd, then imaginary
component and real components switch" (§4.3, code comment at
`orbits.py:241`); the zeroth (mean) row has no imaginary partner and stays. -/
def swap0 (n : ℕ) (z : ℕ → ℕ → ℝ) : ℕ → ℕ → ℝ :=
  fun q k => if q = 0 then z 0 k else if q ≤ n then z (q + n) k else z (q - n) k

/-- Modelled from the spec: `swap_modes(·, axis=1)` from the missing
`arrayops.py` — the real and imaginary spatial half-blocks switch. -/
def swap1 (m : ℕ) (z : ℕ → ℕ → ℝ) : ℕ → ℕ → ℝ :=
  fun i k => if k < m then z i (k + m) else z i (k - m)

/-- `OrbitKS._frequency_vector` (`orbits.py:1536-1553`): the `q`-th temporal
angular frequency `-(2πN/T)·fftfreq(N)[q] = -2πq/T`, raised to `power`. -/
noncomputable def freqW (T : ℝ) (N q p : ℕ) : ℝ :=
  (-1 * (2 * Real.pi * N / T) * ((q : ℝ) / N)) ^ p

/-- `OrbitKS._wave_vector` (`orbits.py:1522-1534`): the `k`-th spatial
wavenumber `(2πM/L)·fftfreq(M)[k] = 2πk/L`, raised to `power`. -/
noncomputable def waveQ (L : ℝ) (M k p : ℕ) : ℝ :=
  ((2 * Real.pi * M / L) * ((k : ℝ) / M)) ^ p

/-- `OrbitKS.elementwise_dtn` (`orbits.py:309-334`): the tiled column of
temporal multipliers `[[0], c1·w, c2·w]`. -/
noncomputable def elementwiseDtn (T : ℝ) (N p : ℕ) : ℕ → ℕ → ℝ :=
  fun q _k =>
    if q = 0 then 0
    else if q ≤ n_of N then (so2c p).1 * freqW T N q p
    else if q ≤ 2 * n_of N then (so2c p).2 * freqW T N (q - n_of N) p
    else 0

/-- `OrbitKS.elementwise_dxn` (`orbits.py:284-307`): the tiled row of spatial
multipliers `[c1·q, c2·q]`. -/
noncomputable def elementwiseDxn (L : ℝ) (M p : ℕ) : ℕ → ℕ → ℝ :=
  fun _i k =>
    if k < m_of M then (so2c p).1 * waveQ L M (k + 1) p
    else if k < 2 * m_of M then (so2c p).2 * waveQ L M (k - m_of M + 1) p
    else 0

/-- The mode-array action of `OrbitKS.dt` (`orbits.py:223-249`): elementwise
multiplication by the temporal multipliers, swapping the real/imaginary row
blocks for odd orders. -/
noncomputable def dtArr (T : ℝ) (N p : ℕ) (z : ℕ → ℕ → ℝ) : ℕ → ℕ → ℝ :=
  if p % 2 = 1 then swap0 (n_of N) (fun q k => elementwiseDtn T N p q k * z q k)
  else fun q k => elementwiseDtn T N p q k * z q k

/-- The mode-array action of `OrbitKS.dx` (`orbits.py:251-282`): elementwise
multiplication by the spatial multipliers, swapping the real/imaginary
column blocks for odd orders. -/
noncomputable def dxArr (L : ℝ) (M p : ℕ) (z : ℕ → ℕ → ℝ) : ℕ → ℕ → ℝ :=
  if p % 2 = 1 then swap1 (m_of M) (fun i k => elementwiseDxn L M p i k * z i k)
  else fun i k => elementwiseDxn L M p i k * z i k

/-- Field-to-modes transform of the unsymmetrized class
(`_spacetime_transform`: space then time). -/
noncomputable def fullFwd (N M : ℕ) (u : ℕ → ℕ → ℝ) : ℕ → ℕ → ℝ :=
  timeFwd2 N (spaceFwd2 M u)

/-- Modes-to-field transform of the unsymmetrized class
(`_inv_spacetime_transform`: time then space). -/
noncomputable def fullInv (N M : ℕ) (z : ℕ → ℕ → ℝ) : ℕ → ℕ → ℝ :=
  spaceInv2 M (timeInv2 N z)

/-- Flattened inner product of two arrays of the same shape
(`a.ravel().dot(b.ravel())`). -/
noncomputable def dot2 (r c : ℕ) (f g : ℕ → ℕ → ℝ) : ℝ :=
  ∑ i ∈ Finset.range r, ∑ j ∈ Finset.range c, f i j * g i j

/-- The mode array of `nonlinear(other, return_array=True)`: `0.5 · d_x(u ⊙ v)`
evaluated pseudospectrally (`orbits.py:1071-1092`, overridden for the
discrete-symmetry classes at `orbits.py:2511-2521` and `2800-2810`, where the
odd spatial derivative acts on spatial modes before the symmetry-reduced
time transform).  Both operands are physical fields; the product orbit
carries the caller's parameters, so the differentiation uses the caller's
`L` and class. -/
noncomputable def nonlinearArrC (c : KSCls) (L : ℝ) (N M : ℕ)
    (uf vf : ℕ → ℕ → ℝ) : ℕ → ℕ → ℝ :=
  match c with
  | .full | .rel | .releq =>
    fun q k => 0.5 * dxArr L M 1
      (tFwdState c N M (spaceFwd2 M (fun i j => uf i j * vf i j))) q k
  | .anti | .sr | .eqm =>
    fun q k => 0.5 * tFwdState c N M (swap1 (m_of M)
      (fun i k' => elementwiseDxn L M 1 i k'
        * spaceFwd2 M (fun i' j => uf i' j * vf i' j) i k')) q k

/-- The mode array of `rnonlinear(other, return_array=True)`
(`orbits.py:1094-1117`): `-F(u ⊙ F⁻¹(d_x w))`; the inner derivative is taken
by `other.dx()` and therefore uses the operand's own parameters and class. -/
noncomputable def rnonlinearArrC (co cw : KSCls) (Lw : ℝ) (Nw Mw N M : ℕ)
    (uf w : ℕ → ℕ → ℝ) : ℕ → ℕ → ℝ :=
  let dxwField : ℕ → ℕ → ℝ :=
    match cw with
    | .full | .rel | .releq => spaceInv2 Mw (tInvState cw Nw Mw (dxArr Lw Mw 1 w))
    | .anti | .sr | .eqm => spaceInv2 Mw (swap1 (m_of Mw)
        (fun i k => elementwiseDxn Lw Mw 1 i k * tInvState cw Nw Mw w i k))
  fun q k => -1 * tFwdState co N M (spaceFwd2 M (fun i j => uf i j * dxwField i j)) q k

/-- `OrbitKS.parameters` property: the stored `S` slot (`0` except for the
Relative classes). -/
def propS (o : KSOrbit) : ℝ :=
  match o.cls with
  | .rel | .releq => o.S
  | _ => 0

/-- `parameters` property: the stored `T` slot (`0` for `EquilibriumOrbitKS`). -/
def propT (o : KSOrbit) : ℝ :=
  match o.cls with
  | .eqm => 0
  | _ => o.T

/-- `OrbitKS.dt` (`orbits.py:223-249`) and the `RelativeEquilibriumOrbitKS`
override (`orbits.py:3554-3577`, identically-zero comoving time derivative);
the orbit is transformed to the mode basis, multiplied elementwise and
returned in its original basis.  The basis/frame preconditions live in
`KSOrbit.dtE`. -/
noncomputable def KSOrbit.dt (o : KSOrbit) (p : ℕ) : KSOrbit :=
  match o.cls with
  | .releq => mkOrbit .releq o.N o.M o.basis (fun _ _ => 0) (propT o) o.L (propS o)
  | _ => (mkOrbit o.cls o.N o.M .modes (dtArr o.T o.N p ((o.transform .modes).state))
      (propT o) o.L (propS o)).transform o.basis

/-- `dx` (`orbits.py:251-282`; discrete-symmetry override at `2378-2395` and
`2692-2710`, which returns odd-order derivatives in the spatial-mode basis). -/
noncomputable def KSOrbit.dx (o : KSOrbit) (p : ℕ) : KSOrbit :=
  match o.cls with
  | .full | .rel | .releq =>
    (mkOrbit o.cls o.N o.M .modes (dxArr o.L o.M p ((o.transform .modes).state))
      (propT o) o.L (propS o)).transform o.basis
  | .anti | .sr | .eqm =>
    if p % 2 = 1 then
      mkOrbit o.cls o.N o.M .sModes (swap1 (m_of o.M)
        (fun i k => elementwiseDxn o.L o.M p i k * (o.transform .sModes).state i k))
        (propT o) o.L (propS o)
    else
      (mkOrbit o.cls o.N o.M .modes
        (fun q k => (so2c p).1 * waveQ o.L o.M (k + 1) p * (o.transform .modes).state q k)
        (propT o) o.L (propS o)).transform o.basis

/-- `OrbitKS.matvec` (`orbits.py:404-451`): the forward Jacobian-vector
product; the vector's state is re-wrapped with the receiver's parameters,
and the parameter components of the vector contribute analytic
parameter-partial terms when the corresponding parameter is unconstrained. -/
noncomputable def KSOrbit.matvec (o v : KSOrbit) : KSOrbit :=
  let uf := (o.transform .field).state
  let vf := (mkOrbit o.cls v.N v.M .modes v.state (propT o) o.L (propS o)).transform .field
  let modesU := (o.transform .modes).state
  mkOrbit o.cls o.N o.M .modes (fun q k =>
    dtArr o.T o.N 1 v.state q k + dxArr o.L o.M 2 v.state q k + dxArr o.L o.M 4 v.state q k
      + 2 * nonlinearArrC o.cls o.L o.N o.M uf vf.state q k
      + (if o.conT = false then v.T * ((-1 / o.T) * dtArr o.T o.N 1 modesU q k) else 0)
      + (if o.conL = false then v.L * ((-2 / o.L) * dxArr o.L o.M 2 modesU q k
          + (-4 / o.L) * dxArr o.L o.M 4 modesU q k
          + (-1 / o.L) * nonlinearArrC o.cls o.L o.N o.M uf uf q k) else 0))
    (propT o) o.L (propS o)

/-- `RelativeOrbitKS.matvec` (`orbits.py:2144-2185`): the parent product plus
the comoving term `(-S/T)·v_x` and the comoving contributions to the
parameter partials. -/
noncomputable def KSOrbit.matvecRel (o v : KSOrbit) : KSOrbit :=
  let base := (o.matvec v).state
  let selfdx := dxArr o.L o.M 1 ((o.transform .modes).state)
  mkOrbit o.cls o.N o.M .modes (fun q k =>
    base q k + ((-o.S / o.T) * dxArr o.L o.M 1 v.state q k
      + (if o.conT = false then v.T * (-1 / o.T) * (-o.S / o.T) * selfdx q k else 0)
      + (if o.conL = false then v.L * (-1 / o.L) * (-o.S / o.T) * selfdx q k else 0)
      + (if o.conS = false then v.S * (-1 / o.T) * selfdx q k else 0)))
    (propT o) o.L (propS o)

/-- `OrbitKS.rmatvec` (`orbits.py:972-1029`): the adjoint Jacobian-vector
product; the linear operators applied to the operand use the operand's own
parameters, and the result's parameter slots are the projections of the
analytic parameter partials onto the operand (`rmatvec_parameters`). -/
noncomputable def KSOrbit.rmatvec (o w : KSOrbit) : KSOrbit :=
  let uf := (o.transform .field).state
  let modesU := (o.transform .modes).state
  let rT := if o.conT = false then
      (-1 / o.T) * dot2 (modeRows o.cls o.N) (modeCols o.cls o.M)
        (dtArr o.T o.N 1 modesU) w.state
    else 0
  let rL := if o.conL = false then
      dot2 (modeRows o.cls o.N) (modeCols o.cls o.M)
        (fun q k => (-2 / o.L) * dxArr o.L o.M 2 modesU q k
          + (-4 / o.L) * dxArr o.L o.M 4 modesU q k
          + (-1 / o.L) * nonlinearArrC o.cls o.L o.N o.M uf uf q k) w.state
    else 0
  mkOrbit o.cls o.N o.M .modes (fun q k =>
    -1 * dtArr w.T w.N 1 w.state q k + dxArr w.L w.M 2 w.state q k
      + dxArr w.L w.M 4 w.state q k
      + rnonlinearArrC o.cls w.cls w.L w.N w.M o.N o.M uf w.state q k)
    rT rL 0

/-- `spatiotemporal_mapping`: the governing-equation residual, class by class
(`orbits.py:1310-1334`, `2324-2326`, `3451-3467`, `3855-3872`).  The
basis precondition lives in `KSOrbit.spatiotemporalMappingE`. -/
noncomputable def KSOrbit.spatiotemporalMapping (o : KSOrbit) : KSOrbit :=
  let z := (o.transform .modes).state
  let uf := (o.transform .field).state
  match o.cls with
  | .full | .anti | .sr =>
    mkOrbit o.cls o.N o.M .modes (fun q k =>
      dtArr o.T o.N 1 z q k
        + (match o.cls with
          | .full => dxArr o.L o.M 2 z q k + dxArr o.L o.M 4 z q k
          | _ => (so2c 2).1 * waveQ o.L o.M (k + 1) 2 * z q k
              + (so2c 4).1 * waveQ o.L o.M (k + 1) 4 * z q k)
        + nonlinearArrC o.cls o.L o.N o.M uf uf q k) (propT o) o.L (propS o)
  | .rel =>
    mkOrbit .rel o.N o.M .modes (fun q k =>
      dtArr o.T o.N 1 z q k + dxArr o.L o.M 2 z q k + dxArr o.L o.M 4 z q k
        + nonlinearArrC .rel o.L o.N o.M uf uf q k
        + (-o.S / o.T) * dxArr o.L o.M 1 z q k) (propT o) o.L (propS o)
  | .eqm =>
    mkOrbit .eqm o.N o.M .modes (fun q k =>
      (so2c 2).1 * waveQ o.L o.M (k + 1) 2 * z q k
        + (so2c 4).1 * waveQ o.L o.M (k + 1) 4 * z q k
        + nonlinearArrC .eqm o.L o.N o.M uf uf q k) (propT o) o.L (propS o)
  | .releq =>
    mkOrbit .releq o.N o.M .modes (fun q k =>
      dxArr o.L o.M 2 z q k + dxArr o.L o.M 4 z q k
        + nonlinearArrC .releq o.L o.N o.M uf uf q k
        + (-o.S / o.T) * dxArr o.L o.M 1 z q k) (propT o) o.L (propS o)

/-- `OrbitKS.residual` (`orbits.py:1172-1186`): half the squared flattened
norm, of the equation map in the mode basis when `apply_mapping` and of the
current state otherwise. -/
noncomputable def KSOrbit.residual (o : KSOrbit) (applyMapping : Bool := true) : ℝ :=
  if applyMapping then
    let v := (o.transform .modes).spatiotemporalMapping
    0.5 * dot2 (modeRows o.cls o.N) (modeCols o.cls o.M) v.state v.state
  else
    0.5 * dot2 (shapeRows o.cls o.basis o.N) (shapeCols o.cls o.basis o.M) o.state o.state

/-- `OrbitKS.norm` (`orbits.py:394-402`): the flattened Euclidean norm. -/
noncomputable def KSOrbit.norm (o : KSOrbit) : ℝ :=
  Real.sqrt (dot2 (shapeRows o.cls o.basis o.N) (shapeCols o.cls o.basis o.M) o.state o.state)

/-- `copy` (`orbits.py:210-212`; Relative override at `1963-1964` forwarding
the frame): a fresh instance from the same state, basis and `parameters`
property, with default constraints. -/
noncomputable def KSOrbit.copy (o : KSOrbit) : KSOrbit :=
  match o.cls with
  | .rel | .releq =>
    { (mkOrbit o.cls o.N o.M o.basis o.state (propT o) o.L (propS o)) with
      frameComoving := o.frameComoving }
  | _ => mkOrbit o.cls o.N o.M o.basis o.state (propT o) o.L (propS o)

/-- `OrbitKS.increment` (`orbits.py:340-359`): state and parameters are
incremented by `step_size` times the other orbit's, and — uniquely among the
KS operators — `self.constraints` is forwarded to the result. -/
noncomputable def KSOrbit.increment (o v : KSOrbit) (step : ℝ) : KSOrbit :=
  { (mkOrbit o.cls o.N o.M o.basis (fun i j => o.state i j + step * v.state i j)
      (propT o + step * propT v) (o.L + step * v.L) (propS o + step * propS v)) with
    conT := o.conT, conL := o.conL, conS := o.conS }

/-- `Orbit.increment`'s parameter rule (`core.py:652-678`): a zero component
of the increment is "assumed to be constrained" and leaves the parameter
unchanged. -/
noncomputable def coreIncParam (selfP otherP step : ℝ) : ℝ :=
  if otherP ≠ 0 then selfP + step * otherP else selfP

/-- `OrbitKS.statemul` (`orbits.py:1336-1353`): elementwise state product,
same basis, caller's parameters, default constraints. -/
noncomputable def KSOrbit.statemul (o other : KSOrbit) : KSOrbit :=
  mkOrbit o.cls o.N o.M o.basis (fun i j => o.state i j * other.state i j)
    (propT o) o.L (propS o)

/-- `Orbit.__add__` (`core.py:70-82`). -/
noncomputable def KSOrbit.add (o other : KSOrbit) : KSOrbit :=
  mkOrbit o.cls o.N o.M o.basis (fun i j => o.state i j + other.state i j)
    (propT o) o.L (propS o)

/-- Maximum of `|u|` over an `N × M` index block (`np.max(np.abs(field))`). -/
noncomputable def maxAbs (N M : ℕ) (u : ℕ → ℕ → ℝ) : ℝ :=
  if h : (Finset.range N ×ˢ Finset.range M).Nonempty then
    (Finset.range N ×ˢ Finset.range M).sup' h (fun p => |u p.1 p.2|)
  else 0

/-- `OrbitKS.rescale` (`orbits.py:1132-1172`), `inplace=False`,
`method='absolute'`: rescale the physical field to the requested maximum
amplitude and return in the original basis. -/
noncomputable def KSOrbit.rescale (o : KSOrbit) (magnitude : ℝ) : KSOrbit :=
  let f := (o.transform .field).state
  (mkOrbit o.cls o.N o.M .field
    (fun i j => magnitude * f i j / maxAbs o.N o.M f) (propT o) o.L (propS o)).transform o.basis

/-- `OrbitKS._pad` (`orbits.py:453-496`): transform to modes, zero-pad each
of the real/imaginary halves along `axis`, scale by `√(size/old)`, rebuild in
the mode basis and transform back to the caller's basis.  Odd sizes raise
`ValueError`.  (This is the base-class method; the discrete-symmetry classes
override it, so theorems below apply it to `full`-class orbits.) -/
noncomputable def KSOrbit.padE (o : KSOrbit) (size : ℕ) (axis : ℕ) :
    Except String KSOrbit :=
  let z := (o.transform .modes).state
  if size % 2 = 1 then
    .error "New discretization size must be an even number, preferably a power of 2"
  else if axis = 0 then
    .ok ((mkOrbit o.cls size o.M .modes (fun q k =>
      Real.sqrt ((size : ℝ) / o.N) *
        (if q < o.N / 2 then z q k
         else if q < o.N / 2 + (size - o.N) / 2 then 0
         else if q < o.N / 2 + (size - o.N) / 2 + (o.N / 2 - 1) then z (q - (size - o.N) / 2) k
         else 0)) (propT o) o.L (propS o)).transform o.basis)
  else
    .ok ((mkOrbit o.cls o.N size .modes (fun i k =>
      Real.sqrt ((size : ℝ) / o.M) *
        (if k < m_of o.M then z i k
         else if k < m_of o.M + (size - o.M) / 2 then 0
         else if k < m_of o.M + (size - o.M) / 2 + m_of o.M then z i (k - (size - o.M) / 2)
         else 0)) (propT o) o.L (propS o)).transform o.basis)

/-- `OrbitKS._truncate` (`orbits.py:498-530`): keep the low-frequency block of
each half, scale by `√(size/old)`, and return with `basis=self.basis` and no
transform back (along `axis=1` it slices `self.state` directly), so it is
faithful to the code only when the caller is already in the mode basis. -/
noncomputable def KSOrbit.truncE (o : KSOrbit) (size : ℕ) (axis : ℕ) :
    Except String KSOrbit :=
  if size % 2 = 1 then
    .error "New discretization size must be an even number, preferably a power of 2"
  else if axis = 0 then
    let z := (o.transform .modes).state
    .ok (mkOrbit o.cls size o.M o.basis (fun q k =>
      Real.sqrt ((size : ℝ) / o.N) *
        (if q < size / 2 then z q k else z (q + (o.N - size) / 2) k))
      (propT o) o.L (propS o))
  else
    .ok (mkOrbit o.cls o.N size o.basis (fun i k =>
      Real.sqrt ((size : ℝ) / o.M) *
        (if k < size / 2 - 1 then o.state i k else o.state i (k + (o.M - size) / 2)))
      (propT o) o.L (propS o))

/-- `OrbitKS.precondition` (`orbits.py:864-899`): multiplies `self.state` by
the reciprocal linear multipliers built from the PASSED parameters
`((pT, pN), (pL, pM))`, rescales unconstrained `T` and `L` in place by
`pT^(-p₁)` and `pL^(-p₂)`, and returns `self`.  The result is the pair
(receiver after the call, returned value): the Python method mutates the
receiver and returns the same object. -/
noncomputable def KSOrbit.preconditionM (o : KSOrbit) (pT : ℝ) (pN : ℕ)
    (pL : ℝ) (pM : ℕ) (p1 p2 : ℕ) : KSOrbit × KSOrbit :=
  let r : KSOrbit :=
    { o with
      state := fun q k => o.state q k *
        (1 / (|elementwiseDtn pT pN 1 q k| + |elementwiseDxn pL pM 2 q k|
          + elementwiseDxn pL pM 4 q k)),
      T := if o.conT = false then o.T * pT ^ (-(p1 : ℤ)) else o.T,
      L := if o.conL = false then o.L * pL ^ (-(p2 : ℤ)) else o.L }
  (r, r)

/-- `verify_integrity`, class by class (`orbits.py:131-156`, `2335-2367`,
`3469-3480`, `3881-3902`): returns `(orbit, code)`.  The `copy()` calls are
modelled value-faithfully (including their constraint reset and, for the
Relative classes, the preserved frame); the `S == 0` shift recomputation
inside the Relative constructors is not modelled, so Relative statements
carry `S ≠ 0` hypotheses where it could fire. -/
noncomputable def KSOrbit.verifyIntegrity (o : KSOrbit) : KSOrbit × ℕ :=
  match o.cls with
  | .full | .anti | .sr =>
    let fieldOrbit := o.transform .field
    if fieldOrbit.norm < (1 / 100000 : ℝ) then
      ((mkOrbit .eqm o.N o.M .field (fun _ _ => 0) (propT o) o.L (propS o)).transform o.basis, 4)
    else if o.T = 0 then
      ((mkOrbit .eqm o.N o.M .field fieldOrbit.state (propT o) o.L (propS o)).transform o.basis, 3)
    else if ((fieldOrbit.dt 1).transform .field).norm < (1 / 100000 : ℝ) then
      ((mkOrbit .eqm o.N o.M .field fieldOrbit.state (propT o) o.L (propS o)).transform o.basis, 3)
    else (o, 1)
  | .eqm =>
    let fieldOrbit := o.transform .field
    if fieldOrbit.norm < (1 / 100000 : ℝ) then
      ((mkOrbit .eqm o.N o.M .field (fun _ _ => 0) (propT o) o.L (propS o)).transform o.basis, 4)
    else (o, 1)
  | .rel =>
    let flipped := { o.copy with S := -o.S }
    let base := if o.residual > flipped.residual then flipped else o.copy
    let fieldOrbit := base.transform .field
    if fieldOrbit.norm < (1 / 100000 : ℝ) ∨ o.T = 0 then
      ((mkOrbit .releq o.N o.M .field (fun _ _ => 0) (propT o) o.L (propS o)).transform o.basis, 4)
    else if o.T = 0 then
      ((mkOrbit .eqm o.N o.M .field fieldOrbit.state (propT o) o.L (propS o)).transform o.basis, 3)
    else if ((fieldOrbit.dt 1).transform .field).norm < (1 / 100000 : ℝ) then
      ((mkOrbit .releq 1 o.M .modes ((o.transform .modes).state)
        (propT o) o.L (propS o)).transform o.basis, 3)
    else (base, 1)
  | .releq =>
    let flipped := { o.copy with S := -o.S }
    let base := if o.residual > flipped.residual then flipped else o.copy
    let fieldOrbit := base.transform .field
    if fieldOrbit.norm < (1 / 100000 : ℝ) then
      ((mkOrbit .releq o.N o.M .field (fun _ _ => 0) (propT o) o.L (propS o)).transform o.basis, 4)
    else (base, 1)

/-- `dt` with its checked precondition: `RelativeOrbitKS.dt`
(`orbits.py:2055-2073`) raises in the physical frame; the base method has no
check and silently transforms to the mode basis. -/
noncomputable def KSOrbit.dtE (o : KSOrbit) (p : ℕ) : Except String KSOrbit :=
  match o.cls with
  | .rel | .releq =>
    if o.frameComoving then .ok (o.dt p)
    else .error "Attempting to compute time derivative in physical reference frame."
  | _ => .ok (o.dt p)

/-- `spatiotemporal_mapping` with its checked precondition
(`orbits.py:1310-1334`, `3451-3467`): every class asserts the mode basis
except the `RelativeEquilibriumOrbitKS` override (`orbits.py:3855-3872`),
which transforms its argument itself. -/
noncomputable def KSOrbit.spatiotemporalMappingE (o : KSOrbit) :
    Except String KSOrbit :=
  match o.cls with
  | .releq => .ok o.spatiotemporalMapping
  | _ =>
    if o.basis = .modes then .ok o.spatiotemporalMapping
    else .error "Convert to spatiotemporal Fourier mode basis before computing mapping func."

/-- `matvec` with its checked precondition (`orbits.py:404-451`): both
operands must be in the mode basis. -/
noncomputable def KSOrbit.matvecE (o v : KSOrbit) : Except String KSOrbit :=
  if o.basis = .modes ∧ v.basis = .modes then
    .ok (if o.cls = .rel ∨ o.cls = .releq then o.matvecRel v else o.matvec v)
  else .error "assert (self.basis == modes) and (other.basis == modes)"

/-- `rmatvec` with its checked precondition (`orbits.py:972-1029`): both
operands must be in the mode basis. -/
noncomputable def KSOrbit.rmatvecE (o w : KSOrbit) : Except String KSOrbit :=
  if o.basis = .modes ∧ w.basis = .modes then .ok (o.rmatvec w)
  else .error "assert (self.basis == modes) and (other.basis == modes)"

/- ## Basic orbit-level lemmas -/

/-- Transforming to the current basis returns the instance itself
(`orbits.py:205-206`). -/
theorem transform_self (o : KSOrbit) (b : KSBasis) (h : o.basis = b) :
    o.transform b = o := by
  cases b <;> simp [KSOrbit.transform, h]

/-- `transform` never changes the symmetry class. -/
theorem transform_cls (o : KSOrbit) (b : KSBasis) : (o.transform b).cls = o.cls := by
  cases b <;> cases hb : o.basis <;>
    simp [KSOrbit.transform, hb, KSOrbit.spaceTransform, KSOrbit.timeTransform,
      KSOrbit.invSpaceTransform, KSOrbit.invTimeTransform, mkOrbit]

/-- `transform` lands in the requested basis. -/
theorem transform_basis (o : KSOrbit) (b : KSBasis) : (o.transform b).basis = b := by
  cases b <;> cases hb : o.basis <;>
    simp [KSOrbit.transform, hb, KSOrbit.spaceTransform, KSOrbit.timeTransform,
      KSOrbit.invSpaceTransform, KSOrbit.invTimeTransform, mkOrbit]

/-- The per-class default `constraints` dictionary: nothing constrained
(`orbits.py:1479-1520`). -/
def constraintsDefault (o : KSOrbit) : Prop :=
  o.conT = false ∧ o.conL = false ∧ o.conS = false

/-- Constructor calls reset the constraints to the default. -/
theorem mk_constraintsDefault (c : KSCls) (N M : ℕ) (b : KSBasis)
    (st : ℕ → ℕ → ℝ) (T L S : ℝ) : constraintsDefault (mkOrbit c N M b st T L S) :=
  ⟨rfl, rfl, rfl⟩

/-- `transform` preserves default constraints (each branch is either the
instance itself or a fresh construction). -/
theorem transform_constraintsDefault (o : KSOrbit) (b : KSBasis)
    (h : constraintsDefault o) : constraintsDefault (o.transform b) := by
  cases b <;> cases hb : o.basis <;>
    simp_all [KSOrbit.transform, hb, KSOrbit.spaceTransform, KSOrbit.timeTransform,
      KSOrbit.invSpaceTransform, KSOrbit.invTimeTransform, mkOrbit, constraintsDefault]

/-- `transform` to a basis other than the current one always constructs a
fresh instance with default constraints. -/
theorem transform_ne_constraintsDefault (o : KSOrbit) (b : KSBasis)
    (h : b ≠ o.basis) : constraintsDefault (o.transform b) := by
  cases b <;> cases hb : o.basis <;>
    simp_all [KSOrbit.transform, hb, KSOrbit.spaceTransform, KSOrbit.timeTransform,
      KSOrbit.invSpaceTransform, KSOrbit.invTimeTransform, mkOrbit, constraintsDefault]

/-- The zero-increment parameter rule is extensionally the plain sum. -/
theorem coreIncParam_eq (sp op step : ℝ) : coreIncParam sp op step = sp + step * op := by
  unfold coreIncParam
  split_ifs with h
  · rfl
  · push_neg at h
    rw [h, mul_zero, add_zero]

/- ## C9: increment parameter semantics -/

/-- C9: for every orbit and every same-class increment orbit,
`increment(other, step_size)` returns state `self.state + step_size·other.state`
and parameters `self_p + step_size·other_p` in every slot; in particular a
zero parameter component of `other` leaves the corresponding parameter of
`self` unchanged, exactly as in `core.Orbit.increment`'s "assumed to be
constrained if 0" rule — the zero test is extensionally redundant. -/
theorem ks_increment_spec (o v : KSOrbit) (step : ℝ) (hcls : v.cls = o.cls) :
    (∀ i j, (o.increment v step).state i j = o.state i j + step * v.state i j)
    ∧ (o.increment v step).T = coreIncParam (propT o) (propT v) step
    ∧ (o.increment v step).L = coreIncParam o.L v.L step
    ∧ (o.increment v step).S = coreIncParam (propS o) (propS v) step
    ∧ (propT v = 0 → (o.increment v step).T = propT o)
    ∧ (v.L = 0 → (o.increment v step).L = o.L)
    ∧ (propS v = 0 → (o.increment v step).S = propS o) := by
  have hT : (o.increment v step).T = propT o + step * propT v := by
    cases hc : o.cls <;>
      simp [KSOrbit.increment, mkOrbit, propT, hcls, hc]
  have hL : (o.increment v step).L = o.L + step * v.L := by
    simp [KSOrbit.increment, mkOrbit]
  have hS : (o.increment v step).S = propS o + step * propS v := by
    cases hc : o.cls <;>
      simp [KSOrbit.increment, mkOrbit, propS, hcls, hc]
  refine ⟨fun i j => rfl, ?_, ?_, ?_, ?_, ?_, ?_⟩
  · rw [hT, coreIncParam_eq]
  · rw [hL, coreIncParam_eq]
  · rw [hS, coreIncParam_eq]
  · intro h0; rw [hT, h0, mul_zero, add_zero]
  · intro h0; rw [hL, h0, mul_zero, add_zero]
  · intro h0; rw [hS, h0, mul_zero, add_zero]

/-- Concrete full-class mode-basis orbits used to instantiate hypotheses. -/
noncomputable def exOrbitA : KSOrbit := mkOrbit .full 2 4 .modes (fun _ _ => 1) 3 2 0

/-- A second concrete full-class mode-basis orbit. -/
noncomputable def exOrbitB : KSOrbit := mkOrbit .full 2 4 .modes (fun _ _ => 2) 0 1 0

theorem ks_increment_spec_witness :
    exOrbitB.cls = exOrbitA.cls ∧
    ((∀ i j, (exOrbitA.increment exOrbitB 1).state i j
        = exOrbitA.state i j + 1 * exOrbitB.state i j)
    ∧ (exOrbitA.increment exOrbitB 1).T = coreIncParam (propT exOrbitA) (propT exOrbitB) 1
    ∧ (exOrbitA.increment exOrbitB 1).L = coreIncParam exOrbitA.L exOrbitB.L 1
    ∧ (exOrbitA.increment exOrbitB 1).S = coreIncParam (propS exOrbitA) (propS exOrbitB) 1
    ∧ (propT exOrbitB = 0 → (exOrbitA.increment exOrbitB 1).T = propT exOrbitA)
    ∧ (exOrbitB.L = 0 → (exOrbitA.increment exOrbitB 1).L = exOrbitA.L)
    ∧ (propS exOrbitB = 0 → (exOrbitA.increment exOrbitB 1).S = propS exOrbitA)) :=
  ⟨rfl, ks_increment_spec exOrbitA exOrbitB 1 rfl⟩

/- ## C8: residual -/

/-- C8: `residual(apply_mapping=False)` is exactly half the sum of squares of
the current state array, and `residual()` is half the squared flattened norm
of the equation map evaluated in the mode basis. -/
theorem ks_residual_spec (o : KSOrbit) :
    o.residual false = 0.5 * ∑ i ∈ Finset.range (shapeRows o.cls o.basis o.N),
      ∑ j ∈ Finset.range (shapeCols o.cls o.basis o.M), (o.state i j) ^ 2
    ∧ o.residual true = 0.5 * ∑ q ∈ Finset.range (modeRows o.cls o.N),
      ∑ k ∈ Finset.range (modeCols o.cls o.M),
        (((o.transform .modes).spatiotemporalMapping).state q k) ^ 2 := by
  constructor
  · simp [KSOrbit.residual, dot2, pow_two]
  · simp [KSOrbit.residual, dot2, pow_two]

/- ## C10: constraint bookkeeping -/

/-- C10: every KS operation that constructs a new instance without forwarding
`constraints` — `copy`, `transform` to a different basis, `dt`, `dx`,
`pad`/`truncate`, `rescale`, `statemul`, and the arithmetic operators —
returns an orbit whose constraints are reset to the per-class default (all
parameters unconstrained); `increment` alone forwards `self.constraints`. -/
theorem ks_constraint_reset (o v : KSOrbit) (tgt : KSBasis) (p : ℕ)
    (step mag : ℝ) (htgt : tgt ≠ o.basis) :
    constraintsDefault o.copy
    ∧ constraintsDefault (o.transform tgt)
    ∧ constraintsDefault (o.dt p)
    ∧ constraintsDefault (o.dx p)
    ∧ (∀ size ax r, o.padE size ax = .ok r → constraintsDefault r)
    ∧ (∀ size ax r, o.truncE size ax = .ok r → constraintsDefault r)
    ∧ constraintsDefault (o.rescale mag)
    ∧ constraintsDefault (o.statemul v)
    ∧ constraintsDefault (o.add v)
    ∧ ((o.increment v step).conT = o.conT ∧ (o.increment v step).conL = o.conL
        ∧ (o.increment v step).conS = o.conS) := by
  refine ⟨?_, transform_ne_constraintsDefault o tgt htgt, ?_, ?_, ?_, ?_, ?_, ?_, ?_,
    rfl, rfl, rfl⟩
  · unfold KSOrbit.copy
    cases o.cls <;> exact ⟨rfl, rfl, rfl⟩
  · unfold KSOrbit.dt
    cases o.cls <;>
      first
        | exact mk_constraintsDefault ..
        | exact transform_constraintsDefault _ _ (mk_constraintsDefault ..)
  · unfold KSOrbit.dx
    split <;> try split
    all_goals
      first
        | exact mk_constraintsDefault ..
        | exact transform_constraintsDefault _ _ (mk_constraintsDefault ..)
  · intro size ax r hr
    unfold KSOrbit.padE at hr
    split_ifs at hr <;> cases hr <;>
      first
        | exact mk_constraintsDefault ..
        | exact transform_constraintsDefault _ _ (mk_constraintsDefault ..)
  · intro size ax r hr
    unfold KSOrbit.truncE at hr
    split_ifs at hr <;> cases hr <;>
      first
        | exact mk_constraintsDefault ..
        | exact transform_constraintsDefault _ _ (mk_constraintsDefault ..)
  · exact transform_constraintsDefault _ _ (mk_constraintsDefault ..)
  · exact mk_constraintsDefault ..
  · exact mk_constraintsDefault ..

theorem ks_constraint_reset_witness :
    KSBasis.field ≠ exOrbitA.basis
    ∧ (constraintsDefault exOrbitA.copy
    ∧ constraintsDefault (exOrbitA.transform .field)
    ∧ constraintsDefault (exOrbitA.dt 1)
    ∧ constraintsDefault (exOrbitA.dx 1)
    ∧ (∀ size ax r, exOrbitA.padE size ax = .ok r → constraintsDefault r)
    ∧ (∀ size ax r, exOrbitA.truncE size ax = .ok r → constraintsDefault r)
    ∧ constraintsDefault (exOrbitA.rescale 3)
    ∧ constraintsDefault (exOrbitA.statemul exOrbitB)
    ∧ constraintsDefault (exOrbitA.add exOrbitB)
    ∧ ((exOrbitA.increment exOrbitB 1).conT = exOrbitA.conT
        ∧ (exOrbitA.increment exOrbitB 1).conL = exOrbitA.conL
        ∧ (exOrbitA.increment exOrbitB 1).conS = exOrbitA.conS)) :=
  ⟨by simp [exOrbitA, mkOrbit],
    ks_constraint_reset exOrbitA exOrbitB .field 1 1 3 (by simp [exOrbitA, mkOrbit])⟩

/- ## C7: operator purity vs `precondition`'s mutation -/

/-- A concrete mode-basis orbit with `T = 2`, used to exhibit
`precondition`'s mutation of its receiver. -/
noncomputable def exOrbitPre : KSOrbit := mkOrbit .full 2 4 .modes (fun _ _ => 1) 2 2 0

/-- C7 counterexample: `precondition` is not pure.  Called on an orbit with
unconstrained `T = 2` and preconditioning parameter `pT = 2` (default power
1), the receiver comes out of the call with `T = 1 ≠ 2` — `precondition`
assigns `self.state`, `self.T` and `self.L` — and the returned object is the
receiver itself, not a new instance. -/
theorem ks_precondition_impure :
    (exOrbitPre.preconditionM 2 2 2 4 1 1).1.T ≠ exOrbitPre.T
    ∧ (exOrbitPre.preconditionM 2 2 2 4 1 1).2
      = (exOrbitPre.preconditionM 2 2 2 4 1 1).1 := by
  constructor
  · simp only [KSOrbit.preconditionM, exOrbitPre, mkOrbit]
    norm_num
  · rfl

/-- C7 (amended): every listed operator except `precondition` is modelled by
a pure function of the receiver (their sources never assign to `self`);
`precondition` mutates the receiver — multiplying the state elementwise by
the reciprocal linear multipliers built from the passed parameters and
rescaling each unconstrained period — and returns the mutated receiver
itself.  The pair `preconditionM` is (receiver after the call, returned
value); basis, class and `S` are untouched. -/
theorem ks_precondition_mutation_spec (o : KSOrbit) (pT : ℝ) (pN : ℕ)
    (pL : ℝ) (pM : ℕ) (p1 p2 : ℕ) :
    (o.preconditionM pT pN pL pM p1 p2).2 = (o.preconditionM pT pN pL pM p1 p2).1
    ∧ (∀ q k, (o.preconditionM pT pN pL pM p1 p2).1.state q k
        = o.state q k * (1 / (|elementwiseDtn pT pN 1 q k|
            + |elementwiseDxn pL pM 2 q k| + elementwiseDxn pL pM 4 q k)))
    ∧ (o.preconditionM pT pN pL pM p1 p2).1.T
        = (if o.conT = false then o.T * pT ^ (-(p1 : ℤ)) else o.T)
    ∧ (o.preconditionM pT pN pL pM p1 p2).1.L
        = (if o.conL = false then o.L * pL ^ (-(p2 : ℤ)) else o.L)
    ∧ (o.preconditionM pT pN pL pM p1 p2).1.S = o.S
    ∧ (o.preconditionM pT pN pL pM p1 p2).1.basis = o.basis
    ∧ (o.preconditionM pT pN pL pM p1 p2).1.cls = o.cls :=
  ⟨rfl, fun _ _ => rfl, rfl, rfl, rfl, rfl, rfl⟩

/- ## C5: basis preconditions -/

/-- A concrete full-class orbit stored in the physical field basis. -/
noncomputable def exOrbitField : KSOrbit := mkOrbit .full 2 4 .field (fun _ _ => 1) 2 2 0

/-- C5 counterexample: differentiation does NOT raise outside the mode basis.
`dt` on a field-basis `OrbitKS` succeeds — `OrbitKS.dt` contains no basis
check and silently calls `transform(to='modes')` on its receiver
(`orbits.py:223-249`) — refuting the claim that differentiating while not in
the mode basis raises an error. -/
theorem ks_dt_no_basis_error :
    exOrbitField.basis ≠ .modes ∧ exOrbitField.dtE 1 = .ok (exOrbitField.dt 1) := by
  constructor
  · simp [exOrbitField, mkOrbit]
  · rfl

/-- C5 (amended): `spatiotemporal_mapping` (except the
`RelativeEquilibriumOrbitKS` override, which silently transforms), `matvec`
and `rmatvec` raise when an operand is not in the mode basis, and the
Relative classes' `dt` raises in the physical frame; plain differentiation,
however, performs no basis check and silently transforms its receiver. -/
theorem ks_basis_error_spec (o v : KSOrbit) (p : ℕ) :
    (o.basis ≠ .modes → o.cls ≠ .releq → ∃ e, o.spatiotemporalMappingE = .error e)
    ∧ (o.cls = .releq → o.spatiotemporalMappingE = .ok o.spatiotemporalMapping)
    ∧ (o.basis ≠ .modes ∨ v.basis ≠ .modes → ∃ e, o.matvecE v = .error e)
    ∧ (o.basis ≠ .modes ∨ v.basis ≠ .modes → ∃ e, o.rmatvecE v = .error e)
    ∧ ((o.cls = .rel ∨ o.cls = .releq) → o.frameComoving = false →
        ∃ e, o.dtE p = .error e)
    ∧ (o.cls ≠ .rel → o.cls ≠ .releq → o.dtE p = .ok (o.dt p)) := by
  have hmv : o.basis ≠ .modes ∨ v.basis ≠ .modes → ¬(o.basis = .modes ∧ v.basis = .modes) := by
    rintro hb ⟨h1, h2⟩
    rcases hb with hb | hb
    · exact hb h1
    · exact hb h2
  refine ⟨?_, ?_, ?_, ?_, ?_, ?_⟩
  · intro hb hc
    refine ⟨"Convert to spatiotemporal Fourier mode basis before computing mapping func.", ?_⟩
    unfold KSOrbit.spatiotemporalMappingE
    cases hcl : o.cls <;> simp_all
  · intro hc
    unfold KSOrbit.spatiotemporalMappingE
    rw [hc]
  · intro hb
    refine ⟨"assert (self.basis == modes) and (other.basis == modes)", ?_⟩
    unfold KSOrbit.matvecE
    rw [if_neg (hmv hb)]
  · intro hb
    refine ⟨"assert (self.basis == modes) and (other.basis == modes)", ?_⟩
    unfold KSOrbit.rmatvecE
    rw [if_neg (hmv hb)]
  · intro hc hf
    refine ⟨"Attempting to compute time derivative in physical reference frame.", ?_⟩
    unfold KSOrbit.dtE
    rcases hc with hc | hc <;> rw [hc] <;> simp [hf]
  · intro h1 h2
    unfold KSOrbit.dtE
    cases hcl : o.cls <;> simp_all

theorem ks_basis_error_spec_witness :
    (∃ e, exOrbitField.spatiotemporalMappingE = .error e)
    ∧ (∃ e, exOrbitField.matvecE exOrbitA = .error e)
    ∧ (∃ e, exOrbitField.rmatvecE exOrbitA = .error e) :=
  ⟨(ks_basis_error_spec exOrbitField exOrbitA 1).1
      (by simp [exOrbitField, mkOrbit]) (by simp [exOrbitField, mkOrbit]),
    (ks_basis_error_spec exOrbitField exOrbitA 1).2.2.1
      (Or.inl (by simp [exOrbitField, mkOrbit])),
    (ks_basis_error_spec exOrbitField exOrbitA 1).2.2.2.1
      (Or.inl (by simp [exOrbitField, mkOrbit]))⟩

/- ## C6: pad/truncate -/

/-- Transforming a modes-basis construction to modes is the identity. -/
theorem transform_mk_modes (c : KSCls) (N M : ℕ) (st : ℕ → ℕ → ℝ) (T L S : ℝ) :
    (mkOrbit c N M .modes st T L S).transform .modes = mkOrbit c N M .modes st T L S :=
  transform_self _ _ rfl

/-- C6: for a full-class mode-basis orbit, `_pad` rescales the retained modes
by `√(new/old)` and zero-pads, `_truncate` rescales by `√(new/old)` and keeps
the low-frequency halves, so that truncating a padded orbit back to the
original size reconstructs every mode entry exactly, along either axis; an
odd target size is rejected with a `ValueError` by both. -/
theorem ks_pad_truncate_spec (o : KSOrbit) (size : ℕ)
    (hb : o.basis = .modes)
    (hN : 0 < o.N) (hNE : o.N % 2 = 0) (hM4 : 4 ≤ o.M) (hME : o.M % 2 = 0)
    (hsize : o.N ≤ size) (hsizeM : o.M ≤ size) (hsE : size % 2 = 0) :
    (∀ r, o.padE size 0 = .ok r →
        (∀ q k, q < o.N / 2 →
          r.state q k = Real.sqrt ((size : ℝ) / o.N) * o.state q k)
        ∧ ∀ t, r.truncE o.N 0 = .ok t →
            ∀ q k, q < o.N - 1 → t.state q k = o.state q k)
    ∧ (∀ r, o.padE size 1 = .ok r →
        (∀ i k, k < m_of o.M →
          r.state i k = Real.sqrt ((size : ℝ) / o.M) * o.state i k)
        ∧ ∀ t, r.truncE o.M 1 = .ok t →
            ∀ i k, k < 2 * m_of o.M → t.state i k = o.state i k)
    ∧ (∀ size', size' % 2 = 1 →
        (∃ e, o.padE size' 0 = .error e) ∧ (∃ e, o.truncE size' 1 = .error e)) := by
  have hspos : 0 < size := lt_of_lt_of_le hN hsize
  have hMpos : 0 < o.M := by omega
  have hsqrtN : Real.sqrt ((o.N : ℝ) / size) * Real.sqrt ((size : ℝ) / o.N) = 1 := by
    rw [← Real.sqrt_mul (by positivity)]
    rw [show ((o.N : ℝ) / size) * ((size : ℝ) / o.N) = 1 by
      field_simp]
    exact Real.sqrt_one
  have hsqrtM : Real.sqrt ((o.M : ℝ) / size) * Real.sqrt ((size : ℝ) / o.M) = 1 := by
    rw [← Real.sqrt_mul (by positivity)]
    rw [show ((o.M : ℝ) / size) * ((size : ℝ) / o.M) = 1 by
      field_simp]
    exact Real.sqrt_one
  have hmodes : o.transform .modes = o := transform_self o _ hb
  refine ⟨?_, ?_, ?_⟩
  · intro r hr
    unfold KSOrbit.padE at hr
    rw [if_neg (by omega), if_pos rfl, hb, transform_mk_modes] at hr
    cases hr
    constructor
    · intro q k hq
      simp only [mkOrbit, hmodes]
      rw [if_pos hq]
    · intro t ht
      unfold KSOrbit.truncE at ht
      rw [if_neg (by omega), if_pos rfl, transform_mk_modes] at ht
      cases ht
      intro q k hq
      simp only [mkOrbit, hmodes]
      by_cases hq2 : q < o.N / 2
      · rw [if_pos hq2, if_pos hq2, ← mul_assoc, hsqrtN, one_mul]
      · rw [if_neg hq2, if_neg (by omega), if_neg (by omega),
          if_pos (by omega), show q + (size - o.N) / 2 - (size - o.N) / 2 = q by omega,
          ← mul_assoc, hsqrtN, one_mul]
  · intro r hr
    unfold KSOrbit.padE at hr
    rw [if_neg (by omega), if_neg (by omega), hb, transform_mk_modes] at hr
    cases hr
    constructor
    · intro i k hk
      simp only [mkOrbit, hmodes]
      rw [if_pos hk]
    · intro t ht
      unfold KSOrbit.truncE at ht
      rw [if_neg (by omega), if_neg (by omega)] at ht
      cases ht
      intro i k hk
      simp only [mkOrbit, hmodes]
      unfold m_of at hk ⊢
      by_cases hk2 : k < o.M / 2 - 1
      · rw [if_pos hk2, if_pos (by omega), ← mul_assoc, hsqrtM, one_mul]
      · rw [if_neg hk2, if_neg (by omega), if_neg (by omega),
          if_pos (by omega), show k + (size - o.M) / 2 - (size - o.M) / 2 = k by omega,
          ← mul_assoc, hsqrtM, one_mul]
  · intro size' hodd
    constructor
    · refine ⟨"New discretization size must be an even number, preferably a power of 2", ?_⟩
      unfold KSOrbit.padE
      rw [if_pos hodd]
    · refine ⟨"New discretization size must be an even number, preferably a power of 2", ?_⟩
      unfold KSOrbit.truncE
      rw [if_pos hodd]

theorem ks_pad_truncate_spec_witness :
    (exOrbitA.basis = .modes ∧ 0 < exOrbitA.N ∧ exOrbitA.N % 2 = 0
      ∧ 4 ≤ exOrbitA.M ∧ exOrbitA.M % 2 = 0 ∧ exOrbitA.N ≤ 6 ∧ exOrbitA.M ≤ 6
      ∧ 6 % 2 = 0)
    ∧ ((∀ r, exOrbitA.padE 6 0 = .ok r →
        (∀ q k, q < exOrbitA.N / 2 →
          r.state q k = Real.sqrt ((6 : ℝ) / exOrbitA.N) * exOrbitA.state q k)
        ∧ ∀ t, r.truncE exOrbitA.N 0 = .ok t →
            ∀ q k, q < exOrbitA.N - 1 → t.state q k = exOrbitA.state q k)
    ∧ (∀ r, exOrbitA.padE 6 1 = .ok r →
        (∀ i k, k < m_of exOrbitA.M →
          r.state i k = Real.sqrt ((6 : ℝ) / exOrbitA.M) * exOrbitA.state i k)
        ∧ ∀ t, r.truncE exOrbitA.M 1 = .ok t →
            ∀ i k, k < 2 * m_of exOrbitA.M → t.state i k = exOrbitA.state i k)
    ∧ (∀ size', size' % 2 = 1 →
        (∃ e, exOrbitA.padE size' 0 = .error e)
        ∧ (∃ e, exOrbitA.truncE size' 1 = .error e))) :=
  ⟨⟨rfl, by decide, by decide, by decide, by decide, by decide, by decide, by decide⟩,
    ks_pad_truncate_spec exOrbitA 6 rfl (by decide) (by decide) (by decide)
      (by decide) (by decide) (by decide) (by decide)⟩

/- ## C3: the forward Jacobian-vector product formula -/

/-- The spec's forward Jacobian-vector formula, written from the spec's
wording for comparison with the code-derived `KSOrbit.matvec`:
`v_t + v_xx + v_xxxx + 2·nonlinear(u_field, v_field)` plus, for each
unconstrained parameter, the vector's parameter component times the analytic
partial (`∂/∂T = (-1/T)·u_t`,
`∂/∂L = (-2/L)·u_xx + (-4/L)·u_xxxx + (-1/L)·nonlinear(u,u)`), with
`nonlinear(a,b) = 0.5·d_x 𝓕(𝓕⁻¹a ⊙ 𝓕⁻¹b)`. -/
noncomputable def specMatvecState (T L : ℝ) (N M : ℕ) (u vst : ℕ → ℕ → ℝ)
    (vT vL : ℝ) (conT conL : Bool) : ℕ → ℕ → ℝ :=
  fun q k =>
    dtArr T N 1 vst q k + dxArr L M 2 vst q k + dxArr L M 4 vst q k
      + 2 * (0.5 * dxArr L M 1 (fullFwd N M (fun i j =>
          fullInv N M u i j * fullInv N M vst i j)) q k)
      + (if conT = false then vT * ((-1 / T) * dtArr T N 1 u q k) else 0)
      + (if conL = false then vL * ((-2 / L) * dxArr L M 2 u q k
          + (-4 / L) * dxArr L M 4 u q k
          + (-1 / L) * (0.5 * dxArr L M 1 (fullFwd N M (fun i j =>
              fullInv N M u i j * fullInv N M u i j)) q k)) else 0)

/-- Unfolding `transform(to='field')` of a mode-basis orbit to state level. -/
theorem transform_field_state (o : KSOrbit) (hb : o.basis = .modes) :
    (o.transform .field).state = spaceInv2 o.M (tInvState o.cls o.N o.M o.state) := by
  show (KSOrbit.transform .field o).state = _
  unfold KSOrbit.transform
  rw [hb]
  rfl

/-- The state of a constructed orbit is the passed array. -/
theorem mk_state (c : KSCls) (N M : ℕ) (b : KSBasis) (st : ℕ → ℕ → ℝ) (T L S : ℝ) :
    (mkOrbit c N M b st T L S).state = st := rfl

/-- `OrbitKS.matvec` on an (unsymmetrized or Relative) mode-basis orbit
equals the spec formula. -/
theorem matvec_state_full_formula (o v : KSOrbit) (hb : o.basis = .modes)
    (hNv : v.N = o.N) (hMv : v.M = o.M) (hcls : o.cls = .full ∨ o.cls = .rel) :
    ∀ q k, (o.matvec v).state q k
      = specMatvecState o.T o.L o.N o.M o.state v.state v.T v.L o.conT o.conL q k := by
  intro q k
  have hwrap : ((mkOrbit o.cls v.N v.M .modes v.state (propT o) o.L (propS o)).transform
      .field).state = spaceInv2 o.M (tInvState o.cls o.N o.M v.state) := by
    rw [transform_field_state _ rfl]
    show spaceInv2 v.M (tInvState o.cls v.N v.M v.state) = _
    rw [hNv, hMv]
  show (KSOrbit.matvec o v).state q k = _
  unfold KSOrbit.matvec
  simp only [mk_state]
  simp only [transform_self o .modes hb, hwrap, transform_field_state o hb]
  rcases hcls with hc | hc <;>
    simp only [hc, tInvState, nonlinearArrC, tFwdState, specMatvecState, fullFwd, fullInv]

/-- C3: for a mode-basis base orbit with matching-discretization mode-basis
vector orbit `v`, `matvec(v)` returns
`v_t + v_xx + v_xxxx + 2·nonlinear(u, v)` plus, for each unconstrained
parameter, `v`'s parameter component times the analytic partial
(`∂/∂T = (-1/T)·u_t`, `∂/∂L = (-2/L)·u_xx + (-4/L)·u_xxxx +
(-1/L)·nonlinear(u,u)`); the Relative variant adds the comoving linear term
`(-S/T)·v_x` and the comoving contributions to the parameter partials. -/
theorem ks_matvec_formula (o v : KSOrbit) (hb : o.basis = .modes)
    (hNv : v.N = o.N) (hMv : v.M = o.M) :
    (o.cls = .full → ∀ q k, (o.matvec v).state q k
      = specMatvecState o.T o.L o.N o.M o.state v.state v.T v.L o.conT o.conL q k)
    ∧ (o.cls = .rel → ∀ q k, (o.matvecRel v).state q k
      = specMatvecState o.T o.L o.N o.M o.state v.state v.T v.L o.conT o.conL q k
        + ((-o.S / o.T) * dxArr o.L o.M 1 v.state q k
          + (if o.conT = false then
              v.T * (-1 / o.T) * (-o.S / o.T) * dxArr o.L o.M 1 o.state q k else 0)
          + (if o.conL = false then
              v.L * (-1 / o.L) * (-o.S / o.T) * dxArr o.L o.M 1 o.state q k else 0)
          + (if o.conS = false then
              v.S * (-1 / o.T) * dxArr o.L o.M 1 o.state q k else 0))) := by
  constructor
  · intro hc
    exact matvec_state_full_formula o v hb hNv hMv (Or.inl hc)
  · intro hc q k
    show (KSOrbit.matvecRel o v).state q k = _
    unfold KSOrbit.matvecRel
    simp only [mkOrbit]
    rw [matvec_state_full_formula o v hb hNv hMv (Or.inr hc) q k,
      transform_self o .modes hb]

theorem ks_matvec_formula_witness :
    (exOrbitA.basis = .modes ∧ exOrbitB.N = exOrbitA.N ∧ exOrbitB.M = exOrbitA.M)
    ∧ ((exOrbitA.cls = .full → ∀ q k, (exOrbitA.matvec exOrbitB).state q k
        = specMatvecState exOrbitA.T exOrbitA.L exOrbitA.N exOrbitA.M
            exOrbitA.state exOrbitB.state exOrbitB.T exOrbitB.L
            exOrbitA.conT exOrbitA.conL q k)
    ∧ (exOrbitA.cls = .rel → ∀ q k, (exOrbitA.matvecRel exOrbitB).state q k
        = specMatvecState exOrbitA.T exOrbitA.L exOrbitA.N exOrbitA.M
            exOrbitA.state exOrbitB.state exOrbitB.T exOrbitB.L
            exOrbitA.conT exOrbitA.conL q k
          + ((-exOrbitA.S / exOrbitA.T) * dxArr exOrbitA.L exOrbitA.M 1 exOrbitB.state q k
            + (if exOrbitA.conT = false then
                exOrbitB.T * (-1 / exOrbitA.T) * (-exOrbitA.S / exOrbitA.T)
                  * dxArr exOrbitA.L exOrbitA.M 1 exOrbitA.state q k else 0)
            + (if exOrbitA.conL = false then
                exOrbitB.L * (-1 / exOrbitA.L) * (-exOrbitA.S / exOrbitA.T)
                  * dxArr exOrbitA.L exOrbitA.M 1 exOrbitA.state q k else 0)
            + (if exOrbitA.conS = false then
                exOrbitB.S * (-1 / exOrbitA.T)
                  * dxArr exOrbitA.L exOrbitA.M 1 exOrbitA.state q k else 0)))) :=
  ⟨⟨rfl, rfl, rfl⟩, ks_matvec_formula exOrbitA exOrbitB rfl rfl rfl⟩

/- ## C4: verify_integrity -/

/-- A nonzero `EquilibriumOrbitKS` (constant field, `T = 0` by class
invariant). -/
noncomputable def exEqNonzero : KSOrbit := mkOrbit .eqm 2 4 .field (fun _ _ => 1) 0 2 0

/-- An all-zero full-class field orbit. -/
noncomputable def exOrbitZero : KSOrbit := mkOrbit .full 2 4 .field (fun _ _ => 0) 2 2 0

/-- C4 counterexample: an `EquilibriumOrbitKS` with `T = 0` and a field well
above the zero threshold is returned unchanged with status code 1 —
`EquilibriumOrbitKS.verify_integrity` performs only the zero-norm check
(`orbits.py:3469-3480`), so the claimed "`T == 0` ⇒ reclassify to the
time-independent variant (code 3)" transition never fires for it. -/
theorem ks_verify_integrity_cex :
    exEqNonzero.T = 0
    ∧ ¬ (exEqNonzero.transform .field).norm < 1 / 100000
    ∧ exEqNonzero.verifyIntegrity = (exEqNonzero, 1) := by
  have hself : exEqNonzero.transform .field = exEqNonzero := transform_self _ _ rfl
  have hdot : dot2 (shapeRows exEqNonzero.cls exEqNonzero.basis exEqNonzero.N)
      (shapeCols exEqNonzero.cls exEqNonzero.basis exEqNonzero.M)
      exEqNonzero.state exEqNonzero.state = 8 := by
    show dot2 (shapeRows .eqm .field 2) (shapeCols .eqm .field 4)
      (fun _ _ => (1 : ℝ)) (fun _ _ => (1 : ℝ)) = 8
    simp [dot2, shapeRows, shapeCols]
    norm_num
  have hnorm : ¬ (exEqNonzero.transform .field).norm < 1 / 100000 := by
    rw [hself]
    unfold KSOrbit.norm
    rw [hdot]
    intro hlt
    have h1 : (1 : ℝ) ≤ Real.sqrt 8 := by
      rw [show (1 : ℝ) = Real.sqrt 1 from (Real.sqrt_one).symm]
      exact Real.sqrt_le_sqrt (by norm_num)
    linarith
  refine ⟨rfl, hnorm, ?_⟩
  show KSOrbit.verifyIntegrity exEqNonzero = _
  simp only [KSOrbit.verifyIntegrity, show exEqNonzero.cls = KSCls.eqm from rfl]
  rw [if_neg hnorm]

/-- C4 (amended): the per-class transition table actually implemented by
`verify_integrity`.  Unsymmetrized and discrete-symmetry classes: zero-norm
field → `EquilibriumOrbitKS` zeros with code 4; else `T == 0` or a
small-norm time derivative → `EquilibriumOrbitKS` of the field with code 3;
else unchanged with code 1.  `EquilibriumOrbitKS`: only the zero-norm check;
a time-independent orbit is otherwise returned unchanged with code 1.
`RelativeOrbitKS`: the sign of `S` is first resolved by residual comparison;
then zero-norm OR `T == 0` → `RelativeEquilibriumOrbitKS` ZEROS with code 4
(`T == 0` is folded into the zero branch, not code 3); a small time
derivative → `RelativeEquilibriumOrbitKS` of the modes with code 3; else the
sign-resolved copy with code 1.  `RelativeEquilibriumOrbitKS`: sign
resolution followed by the zero-norm check only. -/
theorem ks_verify_integrity_spec (o : KSOrbit) :
    ((o.cls = .full ∨ o.cls = .anti ∨ o.cls = .sr) →
      ((o.transform .field).norm < 1 / 100000 →
        o.verifyIntegrity = ((mkOrbit .eqm o.N o.M .field (fun _ _ => 0)
          (propT o) o.L (propS o)).transform o.basis, 4))
      ∧ (¬ (o.transform .field).norm < 1 / 100000 → o.T = 0 →
        o.verifyIntegrity = ((mkOrbit .eqm o.N o.M .field (o.transform .field).state
          (propT o) o.L (propS o)).transform o.basis, 3))
      ∧ (¬ (o.transform .field).norm < 1 / 100000 → o.T ≠ 0 →
          (((o.transform .field).dt 1).transform .field).norm < 1 / 100000 →
        o.verifyIntegrity = ((mkOrbit .eqm o.N o.M .field (o.transform .field).state
          (propT o) o.L (propS o)).transform o.basis, 3))
      ∧ (¬ (o.transform .field).norm < 1 / 100000 → o.T ≠ 0 →
          ¬ (((o.transform .field).dt 1).transform .field).norm < 1 / 100000 →
        o.verifyIntegrity = (o, 1)))
    ∧ (o.cls = .eqm →
      ((o.transform .field).norm < 1 / 100000 →
        o.verifyIntegrity = ((mkOrbit .eqm o.N o.M .field (fun _ _ => 0)
          (propT o) o.L (propS o)).transform o.basis, 4))
      ∧ (¬ (o.transform .field).norm < 1 / 100000 → o.verifyIntegrity = (o, 1)))
    ∧ (o.cls = .rel →
      ∀ base, base = (if o.residual > ({ o.copy with S := -o.S } : KSOrbit).residual
          then ({ o.copy with S := -o.S } : KSOrbit) else o.copy) →
      (((base.transform .field).norm < 1 / 100000 ∨ o.T = 0) →
        o.verifyIntegrity = ((mkOrbit .releq o.N o.M .field (fun _ _ => 0)
          (propT o) o.L (propS o)).transform o.basis, 4))
      ∧ (¬ ((base.transform .field).norm < 1 / 100000 ∨ o.T = 0) →
          (((base.transform .field).dt 1).transform .field).norm < 1 / 100000 →
        o.verifyIntegrity = ((mkOrbit .releq 1 o.M .modes ((o.transform .modes).state)
          (propT o) o.L (propS o)).transform o.basis, 3))
      ∧ (¬ ((base.transform .field).norm < 1 / 100000 ∨ o.T = 0) →
          ¬ (((base.transform .field).dt 1).transform .field).norm < 1 / 100000 →
        o.verifyIntegrity = (base, 1)))
    ∧ (o.cls = .releq →
      ∀ base, base = (if o.residual > ({ o.copy with S := -o.S } : KSOrbit).residual
          then ({ o.copy with S := -o.S } : KSOrbit) else o.copy) →
      ((base.transform .field).norm < 1 / 100000 →
        o.verifyIntegrity = ((mkOrbit .releq o.N o.M .field (fun _ _ => 0)
          (propT o) o.L (propS o)).transform o.basis, 4))
      ∧ (¬ (base.transform .field).norm < 1 / 100000 →
        o.verifyIntegrity = (base, 1))) := by
  refine ⟨?_, ?_, ?_, ?_⟩
  · intro hc
    refine ⟨?_, ?_, ?_, ?_⟩
    · intro h1
      unfold KSOrbit.verifyIntegrity
      rcases hc with hc | hc | hc <;> simp only [hc] <;> rw [if_pos h1]
    · intro h1 h2
      unfold KSOrbit.verifyIntegrity
      rcases hc with hc | hc | hc <;> simp only [hc] <;> rw [if_neg h1, if_pos h2]
    · intro h1 h2 h3
      unfold KSOrbit.verifyIntegrity
      rcases hc with hc | hc | hc <;> simp only [hc] <;>
        rw [if_neg h1, if_neg h2, if_pos h3]
    · intro h1 h2 h3
      unfold KSOrbit.verifyIntegrity
      rcases hc with hc | hc | hc <;> simp only [hc] <;>
        rw [if_neg h1, if_neg h2, if_neg h3]
  · intro hc
    refine ⟨?_, ?_⟩
    · intro h1
      unfold KSOrbit.verifyIntegrity
      simp only [hc]
      rw [if_pos h1]
    · intro h1
      unfold KSOrbit.verifyIntegrity
      simp only [hc]
      rw [if_neg h1]
  · intro hc base hbase
    subst hbase
    refine ⟨?_, ?_, ?_⟩
    · intro h1
      unfold KSOrbit.verifyIntegrity
      simp only [hc]
      rw [if_pos h1]
    · intro h1 h2
      unfold KSOrbit.verifyIntegrity
      simp only [hc]
      rw [if_neg h1, if_neg (fun h => h1 (Or.inr h)), if_pos h2]
    · intro h1 h2
      unfold KSOrbit.verifyIntegrity
      simp only [hc]
      rw [if_neg h1, if_neg (fun h => h1 (Or.inr h)), if_neg h2]
  · intro hc base hbase
    subst hbase
    refine ⟨?_, ?_⟩
    · intro h1
      unfold KSOrbit.verifyIntegrity
      simp only [hc]
      rw [if_pos h1]
    · intro h1
      unfold KSOrbit.verifyIntegrity
      simp only [hc]
      rw [if_neg h1]

theorem ks_verify_integrity_spec_witness :
    (exOrbitZero.cls = .full ∨ exOrbitZero.cls = .anti ∨ exOrbitZero.cls = .sr)
    ∧ (exOrbitZero.transform .field).norm < 1 / 100000
    ∧ exOrbitZero.verifyIntegrity
        = ((mkOrbit .eqm exOrbitZero.N exOrbitZero.M .field (fun _ _ => 0)
            (propT exOrbitZero) exOrbitZero.L (propS exOrbitZero)).transform
              exOrbitZero.basis, 4) := by
  have h1 : exOrbitZero.cls = .full ∨ exOrbitZero.cls = .anti ∨ exOrbitZero.cls = .sr :=
    Or.inl rfl
  have h2 : (exOrbitZero.transform .field).norm < 1 / 100000 := by
    rw [transform_self exOrbitZero .field rfl]
    unfold KSOrbit.norm
    rw [show dot2 (shapeRows exOrbitZero.cls exOrbitZero.basis exOrbitZero.N)
        (shapeCols exOrbitZero.cls exOrbitZero.basis exOrbitZero.M)
        exOrbitZero.state exOrbitZero.state = 0 by
      show dot2 (shapeRows .full .field 2) (shapeCols .full .field 4)
        (fun _ _ => (0 : ℝ)) (fun _ _ => (0 : ℝ)) = 0
      simp [dot2]]
    rw [Real.sqrt_zero]
    norm_num
  exact ⟨h1, h2, ((ks_verify_integrity_spec exOrbitZero).1 h1).1 h2⟩

/- ## C1: transform round trips -/

/-- C1 counterexample: the basis round trip FAILS from the field basis.  For
the constant field `u ≡ 1` on a `2 × 4` grid,
`transform(transform(x, to='s_modes'), to='field')` returns the zero field —
the forward spatial transform keeps only wavenumbers `1..M/2-1`, projecting
out the spatial mean (and Nyquist) component — so the round trip is not the
identity on general states. -/
theorem ks_transform_roundtrip_cex :
    ((exOrbitField.transform .sModes).transform .field).state 0 0
      ≠ exOrbitField.state 0 0 := by
  have hy0 : spaceFwd1 4 (fun _ => (1 : ℝ)) 0 = 0 := by
    rw [spaceFwd1_lo 4 _ 0 (by norm_num [m_of])]
    have h := sumCosInner 4 (by norm_num) 1 le_rfl (by norm_num)
    have h2 : ∑ j ∈ Finset.range 4,
        (1 : ℝ) * Real.cos (2 * Real.pi * ((0 + 1 : ℕ) : ℝ) * j / ((4 : ℕ) : ℝ)) = 0 := by
      simpa using h
    rw [h2, mul_zero]
  show spaceInv1 4 (fun k => spaceFwd1 4 (fun _ => 1) k) 0 ≠ 1
  unfold spaceInv1
  rw [show m_of 4 = 1 from rfl, Finset.sum_range_one]
  simp only [hy0]
  norm_num

/-- C1 (amended): from the spatiotemporal mode basis the round trips hold for
every symmetry class — `transform(transform(x, to='s_modes'), to='modes')`
and `transform(transform(x, to='field'), to='modes')` reproduce every mode
entry exactly — and each 1-D forward/inverse transform pair is orthonormal:
forward is the adjoint (transpose) of inverse, and the inverse is an
isometry onto its mode range (Parseval).  From the field or spatial-mode
basis the round trip only holds on the retained frequency range (the space
transform projects out the mean and Nyquist columns). -/
theorem ks_transform_roundtrip_spec (o : KSOrbit) (hb : o.basis = .modes)
    (hN2 : 2 ≤ o.N) (hNE : o.N % 2 = 0) (hM4 : 4 ≤ o.M) (hME : o.M % 2 = 0) :
    EqOn2 (modeRows o.cls o.N) (modeCols o.cls o.M)
      ((o.transform .sModes).transform .modes).state o.state
    ∧ EqOn2 (modeRows o.cls o.N) (modeCols o.cls o.M)
      ((o.transform .field).transform .modes).state o.state
    ∧ (∀ u z : ℕ → ℝ, ∑ k ∈ Finset.range (2 * m_of o.M), spaceFwd1 o.M u k * z k
        = ∑ j ∈ Finset.range o.M, u j * spaceInv1 o.M z j)
    ∧ (∀ z : ℕ → ℝ, ∑ j ∈ Finset.range o.M, spaceInv1 o.M z j * spaceInv1 o.M z j
        = ∑ k ∈ Finset.range (2 * m_of o.M), z k * z k)
    ∧ (∀ u z : ℕ → ℝ, ∑ q ∈ Finset.range (2 * n_of o.N + 1), timeFwd1 o.N u q * z q
        = ∑ j ∈ Finset.range o.N, u j * timeInv1 o.N z j)
    ∧ (∀ z : ℕ → ℝ, ∑ j ∈ Finset.range o.N, timeInv1 o.N z j * timeInv1 o.N z j
        = ∑ q ∈ Finset.range (2 * n_of o.N + 1), z q * z q) := by
  have h1 : o.transform .sModes = o.invTimeTransform := by
    show KSOrbit.transform _ o = _
    unfold KSOrbit.transform
    rw [hb]
  have h2 : o.transform .field = o.invTimeTransform.invSpaceTransform := by
    show KSOrbit.transform _ o = _
    unfold KSOrbit.transform
    rw [hb]
  refine ⟨?_, ?_, fun u z => spaceAdj1 o.M u z,
    fun z => spaceParseval o.M hM4 hME z, fun u z => timeAdj1 o.N u z,
    fun z => timeParseval o.N hN2 hNE z⟩
  · intro i hi j hj
    rw [h1]
    exact tRT o.cls o.N o.M hN2 hNE hM4 hME o.state i hi j hj
  · intro i hi j hj
    rw [h2]
    exact tsRT o.cls o.N o.M hN2 hNE hM4 hME o.state i hi j hj

theorem ks_transform_roundtrip_spec_witness :
    (exOrbitA.basis = .modes ∧ 2 ≤ exOrbitA.N ∧ exOrbitA.N % 2 = 0
      ∧ 4 ≤ exOrbitA.M ∧ exOrbitA.M % 2 = 0)
    ∧ (EqOn2 (modeRows exOrbitA.cls exOrbitA.N) (modeCols exOrbitA.cls exOrbitA.M)
        ((exOrbitA.transform .sModes).transform .modes).state exOrbitA.state
    ∧ EqOn2 (modeRows exOrbitA.cls exOrbitA.N) (modeCols exOrbitA.cls exOrbitA.M)
        ((exOrbitA.transform .field).transform .modes).state exOrbitA.state
    ∧ (∀ u z : ℕ → ℝ, ∑ k ∈ Finset.range (2 * m_of exOrbitA.M), spaceFwd1 exOrbitA.M u k * z k
        = ∑ j ∈ Finset.range exOrbitA.M, u j * spaceInv1 exOrbitA.M z j)
    ∧ (∀ z : ℕ → ℝ, ∑ j ∈ Finset.range exOrbitA.M,
          spaceInv1 exOrbitA.M z j * spaceInv1 exOrbitA.M z j
        = ∑ k ∈ Finset.range (2 * m_of exOrbitA.M), z k * z k)
    ∧ (∀ u z : ℕ → ℝ, ∑ q ∈ Finset.range (2 * n_of exOrbitA.N + 1), timeFwd1 exOrbitA.N u q * z q
        = ∑ j ∈ Finset.range exOrbitA.N, u j * timeInv1 exOrbitA.N z j)
    ∧ (∀ z : ℕ → ℝ, ∑ j ∈ Finset.range exOrbitA.N,
          timeInv1 exOrbitA.N z j * timeInv1 exOrbitA.N z j
        = ∑ q ∈ Finset.range (2 * n_of exOrbitA.N + 1), z q * z q)) :=
  ⟨⟨rfl, by decide, by decide, by decide, by decide⟩,
    ks_transform_roundtrip_spec exOrbitA rfl (by decide) (by decide) (by decide) (by decide)⟩

/- ## C2: the discrete adjoint identity -/

/-- Pointwise congruence for flattened inner products. -/
theorem dot2_congr (r c : ℕ) (f f' g g' : ℕ → ℕ → ℝ)
    (hf : ∀ i < r, ∀ j < c, f i j = f' i j) (hg : ∀ i < r, ∀ j < c, g i j = g' i j) :
    dot2 r c f g = dot2 r c f' g' := by
  unfold dot2
  refine Finset.sum_congr rfl fun i hi => Finset.sum_congr rfl fun j hj => ?_
  rw [hf i (Finset.mem_range.mp hi) j (Finset.mem_range.mp hj),
    hg i (Finset.mem_range.mp hi) j (Finset.mem_range.mp hj)]

/-- The flattened inner product is symmetric. -/
theorem dot2_comm (r c : ℕ) (f g : ℕ → ℕ → ℝ) : dot2 r c f g = dot2 r c g f := by
  unfold dot2
  exact Finset.sum_congr rfl fun i _ => Finset.sum_congr rfl fun j _ => mul_comm _ _

/-- The flattened inner product is additive in its left argument. -/
theorem dot2_add_left (r c : ℕ) (f g h : ℕ → ℕ → ℝ) :
    dot2 r c (fun i j => f i j + g i j) h = dot2 r c f h + dot2 r c g h := by
  unfold dot2
  rw [← Finset.sum_add_distrib]
  refine Finset.sum_congr rfl fun i _ => ?_
  rw [← Finset.sum_add_distrib]
  exact Finset.sum_congr rfl fun j _ => add_mul _ _ _

/-- Scalars move out of the left argument of the inner product. -/
theorem dot2_smul_left (r c : ℕ) (a : ℝ) (f h : ℕ → ℕ → ℝ) :
    dot2 r c (fun i j => a * f i j) h = a * dot2 r c f h := by
  unfold dot2
  rw [Finset.mul_sum]
  refine Finset.sum_congr rfl fun i _ => ?_
  rw [Finset.mul_sum]
  exact Finset.sum_congr rfl fun j _ => by ring

/-- Multiplication by a fixed array is self-adjoint. -/
theorem dot2_mul_move (r c : ℕ) (a b h : ℕ → ℕ → ℝ) :
    dot2 r c (fun i j => a i j * b i j) h = dot2 r c b (fun i j => a i j * h i j) := by
  unfold dot2
  exact Finset.sum_congr rfl fun i _ => Finset.sum_congr rfl fun j _ => by ring

/-- An even-order spectral derivative is diagonal, hence self-adjoint. -/
theorem dxArr_even_selfAdj (L : ℝ) (M p r c : ℕ) (hp : p % 2 = 0) (z w : ℕ → ℕ → ℝ) :
    dot2 r c (dxArr L M p z) w = dot2 r c z (dxArr L M p w) := by
  unfold dot2 dxArr
  split_ifs with h
  · omega
  · exact Finset.sum_congr rfl fun i _ => Finset.sum_congr rfl fun j _ => by ring

/-- The first SO(2) coefficient of an odd first-order derivative. -/
theorem so2c1_fst : (so2c 1).1 = 1 := rfl

/-- The second SO(2) coefficient of an odd first-order derivative. -/
theorem so2c1_snd : (so2c 1).2 = -1 := rfl

/-- Evaluation of the first-order temporal derivative on a cosine row. -/
theorem dtArr1_lo (T : ℝ) (N : ℕ) (z : ℕ → ℕ → ℝ) (q k : ℕ) (hq : q < n_of N) :
    dtArr T N 1 z (q + 1) k
      = -1 * freqW T N (q + 1) 1 * z (q + 1 + n_of N) k := by
  unfold dtArr
  rw [if_pos (by norm_num : (1 : ℕ) % 2 = 1)]
  unfold swap0
  rw [if_neg (by omega : ¬ q + 1 = 0), if_pos (by omega : q + 1 ≤ n_of N)]
  unfold elementwiseDtn
  simp only []
  rw [if_neg (by omega), if_neg (by omega), if_pos (by omega),
    show q + 1 + n_of N - n_of N = q + 1 by omega, so2c1_snd]

/-- Evaluation of the first-order temporal derivative on a sine row. -/
theorem dtArr1_hi (T : ℝ) (N : ℕ) (z : ℕ → ℕ → ℝ) (q k : ℕ) (hq : q < n_of N) :
    dtArr T N 1 z (n_of N + q + 1) k
      = 1 * freqW T N (q + 1) 1 * z (q + 1) k := by
  unfold dtArr
  rw [if_pos (by norm_num : (1 : ℕ) % 2 = 1)]
  unfold swap0
  rw [if_neg (by omega : ¬ n_of N + q + 1 = 0),
    if_neg (by omega : ¬ n_of N + q + 1 ≤ n_of N),
    show n_of N + q + 1 - n_of N = q + 1 by omega]
  unfold elementwiseDtn
  simp only []
  rw [if_neg (by omega), if_pos (by omega), so2c1_fst]

/-- The mean row of the first-order temporal derivative vanishes. -/
theorem dtArr1_dc (T : ℝ) (N : ℕ) (z : ℕ → ℕ → ℝ) (k : ℕ) :
    dtArr T N 1 z 0 k = 0 := by
  unfold dtArr
  rw [if_pos (by norm_num : (1 : ℕ) % 2 = 1)]
  simp [swap0, elementwiseDtn]

/-- The first-order temporal derivative is antisymmetric on the retained
mode rows: `⟨D_t z, w⟩ = -⟨z, D_t w⟩` summed over the `N-1` mode rows. -/
theorem dtArr_antisym (T : ℝ) (N c : ℕ) (hN2 : 2 ≤ N) (hNE : N % 2 = 0)
    (z w : ℕ → ℕ → ℝ) :
    dot2 (N - 1) c (dtArr T N 1 z) w = -dot2 (N - 1) c z (dtArr T N 1 w) := by
  have hval : ∀ (x y : ℕ → ℕ → ℝ) (k : ℕ), ∑ q ∈ Finset.range (N - 1),
      dtArr T N 1 x q k * y q k
      = ∑ q ∈ Finset.range (n_of N),
          -1 * freqW T N (q + 1) 1 * (x (q + 1 + n_of N) k * y (q + 1) k)
        + ∑ q ∈ Finset.range (n_of N),
          1 * freqW T N (q + 1) 1 * (x (q + 1) k * y (q + 1 + n_of N) k) := by
    intro x y k
    rw [show N - 1 = 2 * n_of N + 1 by unfold n_of; omega,
      Finset.sum_range_succ' (fun q => dtArr T N 1 x q k * y q k) (2 * n_of N), two_mul,
      Finset.sum_range_add]
    have h1 : ∀ q ∈ Finset.range (n_of N), dtArr T N 1 x (q + 1) k * y (q + 1) k
        = -1 * freqW T N (q + 1) 1 * (x (q + 1 + n_of N) k * y (q + 1) k) := by
      intro q hq
      rw [dtArr1_lo T N x q k (Finset.mem_range.mp hq)]
      ring
    have h2 : ∀ q ∈ Finset.range (n_of N),
        dtArr T N 1 x (n_of N + q + 1) k * y (n_of N + q + 1) k
        = 1 * freqW T N (q + 1) 1 * (x (q + 1) k * y (q + 1 + n_of N) k) := by
      intro q hq
      rw [dtArr1_hi T N x q k (Finset.mem_range.mp hq),
        show n_of N + q + 1 = q + 1 + n_of N by omega]
      ring
    rw [Finset.sum_congr rfl h1, Finset.sum_congr rfl h2, dtArr1_dc, zero_mul, add_zero]
  have hcomm : ∀ f : ℕ → ℕ → ℝ, ∑ i ∈ Finset.range (N - 1), ∑ j ∈ Finset.range c, f i j
      = ∑ j ∈ Finset.range c, ∑ i ∈ Finset.range (N - 1), f i j :=
    fun f => Finset.sum_comm
  unfold dot2
  rw [hcomm, hcomm, ← Finset.sum_neg_distrib]
  refine Finset.sum_congr rfl fun k _ => ?_
  rw [show ∑ i ∈ Finset.range (N - 1), z i k * dtArr T N 1 w i k
      = ∑ i ∈ Finset.range (N - 1), dtArr T N 1 w i k * z i k from
      Finset.sum_congr rfl fun i _ => mul_comm _ _,
    hval z w k, hval w z k, ← Finset.sum_add_distrib, ← Finset.sum_add_distrib,
    ← Finset.sum_neg_distrib]
  refine Finset.sum_congr rfl fun q _ => ?_
  ring

/-- Evaluation of the first-order spatial derivative on a cosine column. -/
theorem dxArr1_lo (L : ℝ) (M : ℕ) (z : ℕ → ℕ → ℝ) (i k : ℕ) (hk : k < m_of M) :
    dxArr L M 1 z i k = -1 * waveQ L M (k + 1) 1 * z i (k + m_of M) := by
  unfold dxArr
  rw [if_pos (by norm_num : (1 : ℕ) % 2 = 1)]
  unfold swap1
  rw [if_pos hk]
  unfold elementwiseDxn
  simp only []
  rw [if_neg (by omega), if_pos (by omega),
    show k + m_of M - m_of M + 1 = k + 1 by omega, so2c1_snd]

/-- Evaluation of the first-order spatial derivative on a sine column. -/
theorem dxArr1_hi (L : ℝ) (M : ℕ) (z : ℕ → ℕ → ℝ) (i k : ℕ) (hk : k < m_of M) :
    dxArr L M 1 z i (m_of M + k) = 1 * waveQ L M (k + 1) 1 * z i k := by
  unfold dxArr
  rw [if_pos (by norm_num : (1 : ℕ) % 2 = 1)]
  unfold swap1
  rw [if_neg (by omega), show m_of M + k - m_of M = k by omega]
  unfold elementwiseDxn
  simp only []
  rw [if_pos hk, so2c1_fst]

/-- The first-order spatial derivative is antisymmetric on the retained
mode columns. -/
theorem dxArr_odd_antisym (L : ℝ) (M r : ℕ) (z w : ℕ → ℕ → ℝ) :
    dot2 r (2 * m_of M) (dxArr L M 1 z) w = -dot2 r (2 * m_of M) z (dxArr L M 1 w) := by
  have hval : ∀ (x y : ℕ → ℕ → ℝ) (i : ℕ), ∑ k ∈ Finset.range (2 * m_of M),
      dxArr L M 1 x i k * y i k
      = ∑ k ∈ Finset.range (m_of M),
          -1 * waveQ L M (k + 1) 1 * (x i (k + m_of M) * y i k)
        + ∑ k ∈ Finset.range (m_of M),
          1 * waveQ L M (k + 1) 1 * (x i k * y i (k + m_of M)) := by
    intro x y i
    rw [two_mul, Finset.sum_range_add]
    have h1 : ∀ k ∈ Finset.range (m_of M), dxArr L M 1 x i k * y i k
        = -1 * waveQ L M (k + 1) 1 * (x i (k + m_of M) * y i k) := by
      intro k hk
      rw [dxArr1_lo L M x i k (Finset.mem_range.mp hk)]
      ring
    have h2 : ∀ k ∈ Finset.range (m_of M), dxArr L M 1 x i (m_of M + k) * y i (m_of M + k)
        = 1 * waveQ L M (k + 1) 1 * (x i k * y i (k + m_of M)) := by
      intro k hk
      rw [dxArr1_hi L M x i k (Finset.mem_range.mp hk),
        show m_of M + k = k + m_of M by omega]
      ring
    rw [Finset.sum_congr rfl h1, Finset.sum_congr rfl h2]
  unfold dot2
  rw [← Finset.sum_neg_distrib]
  refine Finset.sum_congr rfl fun i _ => ?_
  rw [show ∑ k ∈ Finset.range (2 * m_of M), z i k * dxArr L M 1 w i k
      = ∑ k ∈ Finset.range (2 * m_of M), dxArr L M 1 w i k * z i k from
      Finset.sum_congr rfl fun k _ => mul_comm _ _,
    hval z w i, hval w z i, ← Finset.sum_add_distrib, ← Finset.sum_add_distrib,
    ← Finset.sum_neg_distrib]
  refine Finset.sum_congr rfl fun k _ => ?_
  ring

/-- Exchange of a double sum over index rectangles. -/
theorem sum_swap2 (a b : ℕ) (f : ℕ → ℕ → ℝ) :
    ∑ i ∈ Finset.range a, ∑ j ∈ Finset.range b, f i j
      = ∑ j ∈ Finset.range b, ∑ i ∈ Finset.range a, f i j := Finset.sum_comm

/-- Column-wise 2-D form of the temporal adjunction. -/
theorem timeAdj2 (N c : ℕ) (s z : ℕ → ℕ → ℝ) :
    ∑ q ∈ Finset.range (2 * n_of N + 1), ∑ k ∈ Finset.range c, timeFwd2 N s q k * z q k
      = ∑ i ∈ Finset.range N, ∑ k ∈ Finset.range c, s i k * timeInv2 N z i k := by
  rw [sum_swap2, sum_swap2 N c]
  exact Finset.sum_congr rfl fun k _ => timeAdj1 N _ _

/-- Row-wise 2-D form of the spatial adjunction. -/
theorem spaceAdj2 (M r : ℕ) (u y : ℕ → ℕ → ℝ) :
    ∑ i ∈ Finset.range r, ∑ k ∈ Finset.range (2 * m_of M), spaceFwd2 M u i k * y i k
      = ∑ i ∈ Finset.range r, ∑ j ∈ Finset.range M, u i j * spaceInv2 M y i j :=
  Finset.sum_congr rfl fun i _ => spaceAdj1 M _ _

/-- Adjunction of the composite field-to-modes transform: the forward
spacetime transform is the transpose of the inverse spacetime transform. -/
theorem fullAdj (N M : ℕ) (x z : ℕ → ℕ → ℝ) :
    dot2 (2 * n_of N + 1) (2 * m_of M) (fullFwd N M x) z = dot2 N M x (fullInv N M z) := by
  unfold dot2 fullFwd fullInv
  rw [timeAdj2 N (2 * m_of M) (spaceFwd2 M x) z]
  exact spaceAdj2 M N x (timeInv2 N z)

/-- The flattened inner product is additive in its right argument. -/
theorem dot2_add_right (r c : ℕ) (f g h : ℕ → ℕ → ℝ) :
    dot2 r c f (fun i j => g i j + h i j) = dot2 r c f g + dot2 r c f h := by
  unfold dot2
  rw [← Finset.sum_add_distrib]
  refine Finset.sum_congr rfl fun i _ => ?_
  rw [← Finset.sum_add_distrib]
  exact Finset.sum_congr rfl fun j _ => mul_add _ _ _

/-- Scalars move out of the right argument of the inner product. -/
theorem dot2_smul_right (r c : ℕ) (a : ℝ) (f h : ℕ → ℕ → ℝ) :
    dot2 r c f (fun i j => a * h i j) = a * dot2 r c f h := by
  unfold dot2
  rw [Finset.mul_sum]
  refine Finset.sum_congr rfl fun i _ => ?_
  rw [Finset.mul_sum]
  exact Finset.sum_congr rfl fun j _ => by ring

/-- The inner product against the zero array vanishes. -/
theorem dot2_zero_left (r c : ℕ) (h : ℕ → ℕ → ℝ) :
    dot2 r c (fun _ _ => 0) h = 0 := by
  unfold dot2
  simp

/-- `OrbitKS.rmatvec`'s state on unsymmetrized mode-basis operands, written
through the composite transforms: the linear terms apply the operand's own
parameters `(w.T, w.N, w.L, w.M)`. -/
theorem rmatvec_state_full_formula (o w : KSOrbit) (hb : o.basis = .modes)
    (hco : o.cls = .full) (hcw : w.cls = .full) :
    ∀ q k, (o.rmatvec w).state q k
      = -1 * dtArr w.T w.N 1 w.state q k + dxArr w.L w.M 2 w.state q k
        + dxArr w.L w.M 4 w.state q k
        + -1 * fullFwd o.N o.M (fun i j => fullInv o.N o.M o.state i j
            * fullInv w.N w.M (dxArr w.L w.M 1 w.state) i j) q k := by
  intro q k
  show (KSOrbit.rmatvec o w).state q k = _
  unfold KSOrbit.rmatvec
  simp only [mk_state]
  simp only [transform_field_state o hb, hco, hcw, rnonlinearArrC, tFwdState, tInvState,
    fullFwd, fullInv]

/-- `rmatvec_parameters`: the returned `T` slot projects the analytic
`T`-partial onto the operand (computed with the base orbit's parameters). -/
theorem rmatvec_T_full (o w : KSOrbit) (hb : o.basis = .modes) (hco : o.cls = .full) :
    (o.rmatvec w).T = (if o.conT = false then
      (-1 / o.T) * dot2 (modeRows .full o.N) (modeCols .full o.M)
        (dtArr o.T o.N 1 o.state) w.state else 0) := by
  show (KSOrbit.rmatvec o w).T = _
  unfold KSOrbit.rmatvec
  simp only [mkOrbit, hco, transform_self o .modes hb]

/-- `rmatvec_parameters`: the returned `L` slot projects the analytic
`L`-partial onto the operand. -/
theorem rmatvec_L_full (o w : KSOrbit) (hb : o.basis = .modes) (hco : o.cls = .full) :
    (o.rmatvec w).L = (if o.conL = false then
      dot2 (modeRows .full o.N) (modeCols .full o.M)
        (fun q k => (-2 / o.L) * dxArr o.L o.M 2 o.state q k
          + (-4 / o.L) * dxArr o.L o.M 4 o.state q k
          + (-1 / o.L) * (0.5 * dxArr o.L o.M 1 (fullFwd o.N o.M (fun i j =>
              fullInv o.N o.M o.state i j * fullInv o.N o.M o.state i j)) q k)) w.state
      else 0) := by
  show (KSOrbit.rmatvec o w).L = _
  unfold KSOrbit.rmatvec
  simp only [mkOrbit, hco, transform_self o .modes hb, transform_field_state o hb,
    nonlinearArrC, tFwdState, tInvState, fullFwd, fullInv]

/-- C2 (amended): the discrete adjoint identity
`⟨matvec(v), w⟩ = ⟨v, rmatvec(w)⟩ + v.T·rmatvec_T + v.L·rmatvec_L` holds for
unsymmetrized mode-basis orbits PROVIDED the adjoint operand carries the
same parameters and discretization as the base orbit (`w.T = o.T`,
`w.L = o.L`, `w.N = o.N`, `w.M = o.M`) — because `rmatvec` builds its linear
operators from the operand's own attributes; the forward product returns
state plus scaled parameter deltas while the adjoint returns state plus
projected parameter scalars. -/
theorem ks_adjoint_identity (o v w : KSOrbit)
    (hbo : o.basis = .modes) (hco : o.cls = .full) (hcw : w.cls = .full)
    (hNv : v.N = o.N) (hMv : v.M = o.M)
    (hTw : w.T = o.T) (hLw : w.L = o.L) (hNw : w.N = o.N) (hMw : w.M = o.M)
    (hN2 : 2 ≤ o.N) (hNE : o.N % 2 = 0) (hM4 : 4 ≤ o.M) (hME : o.M % 2 = 0) :
    dot2 (modeRows .full o.N) (modeCols .full o.M) (o.matvec v).state w.state
      = dot2 (modeRows .full o.N) (modeCols .full o.M) v.state (o.rmatvec w).state
        + v.T * (o.rmatvec w).T + v.L * (o.rmatvec w).L := by
  have hrow : modeRows .full o.N = o.N - 1 := rfl
  have hcol : modeCols .full o.M = 2 * m_of o.M := by
    show o.M - 2 = 2 * m_of o.M
    unfold m_of
    omega
  have hNn : o.N - 1 = 2 * n_of o.N + 1 := by
    unfold n_of
    omega
  have hmv := matvec_state_full_formula o v hbo hNv hMv (Or.inl hco)
  have hrm := rmatvec_state_full_formula o w hbo hco hcw
  rw [hTw, hLw, hNw, hMw] at hrm
  have hrT := rmatvec_T_full o w hbo hco
  have hrL := rmatvec_L_full o w hbo hco
  rw [hrow, hcol] at hrT hrL
  have hL1 : dot2 (o.N - 1) (2 * m_of o.M) (o.matvec v).state w.state
      = dot2 (o.N - 1) (2 * m_of o.M)
          (fun q k => specMatvecState o.T o.L o.N o.M o.state v.state v.T v.L
            o.conT o.conL q k)
          w.state :=
    dot2_congr _ _ _ _ _ _ (fun q _ k _ => hmv q k) (fun _ _ _ _ => rfl)
  have hR1 : dot2 (o.N - 1) (2 * m_of o.M) v.state (o.rmatvec w).state
      = dot2 (o.N - 1) (2 * m_of o.M) v.state
          (fun q k => -1 * dtArr o.T o.N 1 w.state q k + dxArr o.L o.M 2 w.state q k
            + dxArr o.L o.M 4 w.state q k
            + -1 * fullFwd o.N o.M (fun i j => fullInv o.N o.M o.state i j
                * fullInv o.N o.M (dxArr o.L o.M 1 w.state) i j) q k) :=
    dot2_congr _ _ _ _ _ _ (fun _ _ _ _ => rfl) (fun q _ k _ => hrm q k)
  rw [hrow, hcol, hL1, hR1, hrT, hrL]
  simp only [specMatvecState]
  rw [dot2_add_left, dot2_add_left, dot2_add_left, dot2_add_left, dot2_add_left]
  rw [dot2_add_right, dot2_add_right, dot2_add_right]
  have e1 : dot2 (o.N - 1) (2 * m_of o.M)
      (fun q k => dtArr o.T o.N 1 v.state q k) w.state
      = -dot2 (o.N - 1) (2 * m_of o.M) v.state (dtArr o.T o.N 1 w.state) :=
    dtArr_antisym o.T o.N (2 * m_of o.M) hN2 hNE v.state w.state
  have e2 : dot2 (o.N - 1) (2 * m_of o.M)
      (fun q k => dxArr o.L o.M 2 v.state q k) w.state
      = dot2 (o.N - 1) (2 * m_of o.M) v.state (dxArr o.L o.M 2 w.state) :=
    dxArr_even_selfAdj o.L o.M 2 _ _ (by norm_num) v.state w.state
  have e3 : dot2 (o.N - 1) (2 * m_of o.M)
      (fun q k => dxArr o.L o.M 4 v.state q k) w.state
      = dot2 (o.N - 1) (2 * m_of o.M) v.state (dxArr o.L o.M 4 w.state) :=
    dxArr_even_selfAdj o.L o.M 4 _ _ (by norm_num) v.state w.state
  have e4 : dot2 (o.N - 1) (2 * m_of o.M)
      (fun q k => 2 * (0.5 * dxArr o.L o.M 1 (fullFwd o.N o.M (fun i j =>
          fullInv o.N o.M o.state i j * fullInv o.N o.M v.state i j)) q k)) w.state
      = dot2 (o.N - 1) (2 * m_of o.M) v.state
          (fun q k => -1 * fullFwd o.N o.M (fun i j => fullInv o.N o.M o.state i j
              * fullInv o.N o.M (dxArr o.L o.M 1 w.state) i j) q k) := by
    rw [show (fun q k => 2 * (0.5 * dxArr o.L o.M 1 (fullFwd o.N o.M (fun i j =>
          fullInv o.N o.M o.state i j * fullInv o.N o.M v.state i j)) q k) : ℕ → ℕ → ℝ)
        = dxArr o.L o.M 1 (fullFwd o.N o.M (fun i j =>
            fullInv o.N o.M o.state i j * fullInv o.N o.M v.state i j)) from
      funext fun q => funext fun k => by ring]
    rw [dxArr_odd_antisym o.L o.M (o.N - 1) _ w.state, hNn,
      fullAdj o.N o.M _ (dxArr o.L o.M 1 w.state),
      dot2_mul_move o.N o.M (fullInv o.N o.M o.state) (fullInv o.N o.M v.state)
        (fullInv o.N o.M (dxArr o.L o.M 1 w.state)),
      dot2_comm o.N o.M (fullInv o.N o.M v.state) _,
      ← fullAdj o.N o.M (fun i j => fullInv o.N o.M o.state i j
          * fullInv o.N o.M (dxArr o.L o.M 1 w.state) i j) v.state,
      dot2_comm (2 * n_of o.N + 1) (2 * m_of o.M) _ v.state,
      dot2_smul_right]
    ring
  have e5 : dot2 (o.N - 1) (2 * m_of o.M)
      (fun q k => if o.conT = false then
          v.T * (-1 / o.T * dtArr o.T o.N 1 o.state q k) else 0) w.state
      = v.T * (if o.conT = false then
          -1 / o.T * dot2 (o.N - 1) (2 * m_of o.M) (dtArr o.T o.N 1 o.state) w.state
        else 0) := by
    by_cases hc : o.conT = false
    · simp only [if_pos hc]
      rw [dot2_smul_left, dot2_smul_left]
    · simp only [if_neg hc]
      rw [dot2_zero_left, mul_zero]
  have e6 : dot2 (o.N - 1) (2 * m_of o.M)
      (fun q k => if o.conL = false then
          v.L * (-2 / o.L * dxArr o.L o.M 2 o.state q k
            + -4 / o.L * dxArr o.L o.M 4 o.state q k
            + -1 / o.L * (0.5 * dxArr o.L o.M 1 (fullFwd o.N o.M (fun i j =>
                fullInv o.N o.M o.state i j * fullInv o.N o.M o.state i j)) q k))
        else 0) w.state
      = v.L * (if o.conL = false then
          dot2 (o.N - 1) (2 * m_of o.M)
            (fun q k => -2 / o.L * dxArr o.L o.M 2 o.state q k
              + -4 / o.L * dxArr o.L o.M 4 o.state q k
              + -1 / o.L * (0.5 * dxArr o.L o.M 1 (fullFwd o.N o.M (fun i j =>
                  fullInv o.N o.M o.state i j * fullInv o.N o.M o.state i j)) q k))
            w.state
        else 0) := by
    by_cases hc : o.conL = false
    · simp only [if_pos hc]
      rw [dot2_smul_left]
    · simp only [if_neg hc]
      rw [dot2_zero_left, mul_zero]
  rw [e1, e2, e3, e4, e5, e6, dot2_smul_right, dot2_smul_right]
  ring

/-- The forward 1-D spatial transform of the zero signal. -/
theorem spaceFwd1_zeroFn (M k : ℕ) : spaceFwd1 M (fun _ => (0 : ℝ)) k = 0 := by
  unfold spaceFwd1
  split_ifs <;> simp

/-- The forward 1-D temporal transform of the zero signal. -/
theorem timeFwd1_zeroFn (N q : ℕ) : timeFwd1 N (fun _ => (0 : ℝ)) q = 0 := by
  unfold timeFwd1
  split_ifs <;> simp

/-- The inverse 1-D spatial transform of the zero signal. -/
theorem spaceInv1_zeroFn (M j : ℕ) : spaceInv1 M (fun _ => (0 : ℝ)) j = 0 := by
  unfold spaceInv1
  simp

/-- The inverse 1-D temporal transform of the zero signal. -/
theorem timeInv1_zeroFn (N j : ℕ) : timeInv1 N (fun _ => (0 : ℝ)) j = 0 := by
  unfold timeInv1
  simp

/-- The composite inverse transform of the zero array. -/
theorem fullInv_zeroFn (N M : ℕ) : fullInv N M (fun _ _ => (0 : ℝ)) = fun _ _ => 0 := by
  funext i j
  show spaceInv1 M (fun k => timeInv1 N (fun i' => (0 : ℝ)) i) j = 0
  rw [show (fun k => timeInv1 N (fun i' => (0 : ℝ)) i) = fun k : ℕ => (0 : ℝ) from
    funext fun k => timeInv1_zeroFn N i]
  exact spaceInv1_zeroFn M j

/-- The composite forward transform of the zero array. -/
theorem fullFwd_zeroFn (N M : ℕ) : fullFwd N M (fun _ _ => (0 : ℝ)) = fun _ _ => 0 := by
  funext q k
  show timeFwd1 N (fun i => spaceFwd1 M (fun _ => (0 : ℝ)) k) q = 0
  rw [show (fun i => spaceFwd1 M (fun _ => (0 : ℝ)) k) = fun i : ℕ => (0 : ℝ) from
    funext fun i => spaceFwd1_zeroFn M k]
  exact timeFwd1_zeroFn N q

/-- Base point for the adjoint counterexample: zero modes, `T = L = 2π`. -/
noncomputable def exAdjO : KSOrbit :=
  mkOrbit .full 4 4 .modes (fun _ _ => 0) (2 * Real.pi) (2 * Real.pi) 0

/-- Forward operand: unit first-cosine-row mode, zero parameter deltas. -/
noncomputable def exAdjV : KSOrbit :=
  mkOrbit .full 4 4 .modes (fun q k => if q = 1 ∧ k = 0 then 1 else 0) 0 0 0

/-- Adjoint operand: unit first-sine-row mode carrying its own `T = 4π`. -/
noncomputable def exAdjW : KSOrbit :=
  mkOrbit .full 4 4 .modes (fun q k => if q = 2 ∧ k = 0 then 1 else 0)
    (4 * Real.pi) (2 * Real.pi) 0

/-- The first temporal frequency at `T = 2π`, `N = 4`. -/
theorem freqW_2pi : freqW (2 * Real.pi) 4 1 1 = -1 := by
  unfold freqW
  rw [pow_one]
  have hpi := Real.pi_ne_zero
  push_cast
  field_simp

/-- The first temporal frequency at `T = 4π`, `N = 4`. -/
theorem freqW_4pi : freqW (4 * Real.pi) 4 1 1 = -(1 / 2) := by
  unfold freqW
  rw [pow_one]
  have hpi := Real.pi_ne_zero
  push_cast
  field_simp
  ring

/-- C2 counterexample: the adjoint identity FAILS when the adjoint operand
carries its own parameters.  With zero base field, `T = L = 2π`, `N = M = 4`,
`v` the unit first-cosine mode with zero parameter slots, and `w` the unit
first-sine mode constructed with `T = 4π`, the forward product gives
`⟨matvec(v), w⟩ = -1` while `⟨v, rmatvec(w)⟩ + v.T·rm_T + v.L·rm_L = -1/2`:
`rmatvec` differentiates with `w`'s own `T = 4π` rather than the base
orbit's `2π`. -/
theorem ks_adjoint_identity_cex :
    dot2 (modeRows .full 4) (modeCols .full 4)
        (exAdjO.matvec exAdjV).state exAdjW.state
      ≠ dot2 (modeRows .full 4) (modeCols .full 4)
          exAdjV.state (exAdjO.rmatvec exAdjW).state
        + exAdjV.T * (exAdjO.rmatvec exAdjW).T
        + exAdjV.L * (exAdjO.rmatvec exAdjW).L := by
  have hW : ∀ f : ℕ → ℕ → ℝ,
      dot2 (modeRows .full 4) (modeCols .full 4) f exAdjW.state = f 2 0 := by
    intro f
    show dot2 3 2 f (fun q k => if q = 2 ∧ k = 0 then (1 : ℝ) else 0) = f 2 0
    norm_num [dot2, Finset.sum_range_succ]
  have hV : ∀ g : ℕ → ℕ → ℝ,
      dot2 (modeRows .full 4) (modeCols .full 4) exAdjV.state g = g 1 0 := by
    intro g
    show dot2 3 2 (fun q k => if q = 1 ∧ k = 0 then (1 : ℝ) else 0) g = g 1 0
    norm_num [dot2, Finset.sum_range_succ]
  have hmv := matvec_state_full_formula exAdjO exAdjV rfl rfl rfl (Or.inl rfl)
  have hdt : dtArr (2 * Real.pi) 4 1
      (fun q k => if q = 1 ∧ k = 0 then (1 : ℝ) else 0) 2 0 = -1 := by
    have h := dtArr1_hi (2 * Real.pi) 4
      (fun q k => if q = 1 ∧ k = 0 then (1 : ℝ) else 0) 0 0 (by norm_num [n_of])
    rw [show n_of 4 + 0 + 1 = 2 by norm_num [n_of]] at h
    rw [h, freqW_2pi]
    norm_num
  have hdx : ∀ p, p % 2 = 0 → dxArr (2 * Real.pi) 4 p
      (fun q k => if q = 1 ∧ k = 0 then (1 : ℝ) else 0) 2 0 = 0 := by
    intro p hp
    unfold dxArr
    rw [if_neg (by omega)]
    norm_num
  have hnl : fullFwd 4 4 (fun i j => fullInv 4 4 (fun _ _ => (0 : ℝ)) i j
      * fullInv 4 4 (fun q k => if q = 1 ∧ k = 0 then (1 : ℝ) else 0) i j)
      = fun _ _ => 0 := by
    rw [show (fun i j => fullInv 4 4 (fun _ _ => (0 : ℝ)) i j
        * fullInv 4 4 (fun q k => if q = 1 ∧ k = 0 then (1 : ℝ) else 0) i j)
        = fun _ _ => (0 : ℝ) from funext fun i => funext fun j => by
      simp [fullInv_zeroFn]]
    exact fullFwd_zeroFn 4 4
  have hdx1z : dxArr (2 * Real.pi) 4 1 (fun _ _ => (0 : ℝ)) 2 0 = 0 := by
    unfold dxArr
    rw [if_pos (by norm_num)]
    unfold swap1
    norm_num [elementwiseDxn]
  have hLHS : dot2 (modeRows .full 4) (modeCols .full 4)
      (exAdjO.matvec exAdjV).state exAdjW.state = -1 := by
    rw [hW, hmv 2 0]
    show specMatvecState (2 * Real.pi) (2 * Real.pi) 4 4 (fun _ _ => 0)
      (fun q k => if q = 1 ∧ k = 0 then (1 : ℝ) else 0) 0 0 false false 2 0 = -1
    unfold specMatvecState
    rw [hdt, hdx 2 (by norm_num), hdx 4 (by norm_num), hnl, hdx1z]
    norm_num
  have hrm := rmatvec_state_full_formula exAdjO exAdjW rfl rfl rfl
  have hdtw : dtArr (4 * Real.pi) 4 1
      (fun q k => if q = 2 ∧ k = 0 then (1 : ℝ) else 0) 1 0 = 1 / 2 := by
    have h := dtArr1_lo (4 * Real.pi) 4
      (fun q k => if q = 2 ∧ k = 0 then (1 : ℝ) else 0) 0 0 (by norm_num [n_of])
    rw [show 0 + 1 + n_of 4 = 2 by norm_num [n_of], show (0 : ℕ) + 1 = 1 from rfl] at h
    rw [h, freqW_4pi]
    norm_num
  have hdxw : ∀ p, p % 2 = 0 → dxArr (2 * Real.pi) 4 p
      (fun q k => if q = 2 ∧ k = 0 then (1 : ℝ) else 0) 1 0 = 0 := by
    intro p hp
    unfold dxArr
    rw [if_neg (by omega)]
    norm_num
  have hnlw : fullFwd 4 4 (fun i j => fullInv 4 4 (fun _ _ => (0 : ℝ)) i j
      * fullInv 4 4 (dxArr (2 * Real.pi) 4 1
          (fun q k => if q = 2 ∧ k = 0 then (1 : ℝ) else 0)) i j)
      = fun _ _ => 0 := by
    rw [show (fun i j => fullInv 4 4 (fun _ _ => (0 : ℝ)) i j
        * fullInv 4 4 (dxArr (2 * Real.pi) 4 1
            (fun q k => if q = 2 ∧ k = 0 then (1 : ℝ) else 0)) i j)
        = fun _ _ => (0 : ℝ) from funext fun i => funext fun j => by
      simp [fullInv_zeroFn]]
    exact fullFwd_zeroFn 4 4
  have hRHS1 : dot2 (modeRows .full 4) (modeCols .full 4)
      exAdjV.state (exAdjO.rmatvec exAdjW).state = -(1 / 2) := by
    rw [hV, hrm 1 0]
    show -1 * dtArr (4 * Real.pi) 4 1
        (fun q k => if q = 2 ∧ k = 0 then (1 : ℝ) else 0) 1 0
      + dxArr (2 * Real.pi) 4 2 (fun q k => if q = 2 ∧ k = 0 then (1 : ℝ) else 0) 1 0
      + dxArr (2 * Real.pi) 4 4 (fun q k => if q = 2 ∧ k = 0 then (1 : ℝ) else 0) 1 0
      + -1 * fullFwd 4 4 (fun i j => fullInv 4 4 (fun _ _ => (0 : ℝ)) i j
          * fullInv 4 4 (dxArr (2 * Real.pi) 4 1
              (fun q k => if q = 2 ∧ k = 0 then (1 : ℝ) else 0)) i j) 1 0
      = -(1 / 2)
    rw [hdtw, hdxw 2 (by norm_num), hdxw 4 (by norm_num), hnlw]
    norm_num
  have hfinal : dot2 (modeRows .full 4) (modeCols .full 4)
      exAdjV.state (exAdjO.rmatvec exAdjW).state
      + exAdjV.T * (exAdjO.rmatvec exAdjW).T
      + exAdjV.L * (exAdjO.rmatvec exAdjW).L = -(1 / 2) := by
    rw [hRHS1, show exAdjV.T = 0 from rfl, show exAdjV.L = 0 from rfl]
    ring
  rw [hLHS, hfinal]
  norm_num

theorem ks_adjoint_identity_witness :
    (exAdjO.basis = .modes ∧ exAdjO.cls = .full ∧ exAdjO.cls = .full
      ∧ exAdjV.N = exAdjO.N ∧ exAdjV.M = exAdjO.M
      ∧ exAdjO.T = exAdjO.T ∧ exAdjO.L = exAdjO.L
      ∧ exAdjO.N = exAdjO.N ∧ exAdjO.M = exAdjO.M
      ∧ 2 ≤ exAdjO.N ∧ exAdjO.N % 2 = 0 ∧ 4 ≤ exAdjO.M ∧ exAdjO.M % 2 = 0)
    ∧ dot2 (modeRows .full exAdjO.N) (modeCols .full exAdjO.M)
        (exAdjO.matvec exAdjV).state exAdjO.state
      = dot2 (modeRows .full exAdjO.N) (modeCols .full exAdjO.M)
          exAdjV.state (exAdjO.rmatvec exAdjO).state
        + exAdjV.T * (exAdjO.rmatvec exAdjO).T
        + exAdjV.L * (exAdjO.rmatvec exAdjO).L :=
  ⟨⟨rfl, rfl, rfl, rfl, rfl, rfl, rfl, rfl, rfl, by decide, by decide, by decide, by decide⟩,
    ks_adjoint_identity exAdjO exAdjV exAdjO rfl rfl rfl rfl rfl rfl rfl rfl rfl
      (by decide) (by decide) (by decide) (by decide)⟩
